import Mathlib

/-!
Verification of the NFA-construction engine in `nfa.py`.

The program compiles a regular-expression syntax tree (literals plus union,
intersection, concatenation and kleene-star) into an NFA with epsilon
transitions.  States are Python objects carrying a mutable outgoing
transition table `dict[chr, set[State]]`; a global counter assigns each new
state a one-character label and raises once more than 27 states have been
created (`State.__init__`).

Shallow embedding used here:

* a state is identified by the value the global counter had when it was
  allocated (a `Nat`, starting at 65 as in the source);
* the mutable heap of all states is a `Store`: the counter plus the set of
  transition triples `(source, symbol, destination)`.  A Python
  `transitions` dict maps a symbol to a non-empty set of destinations, so
  the dict-of-sets and the set of triples are in bijection
  (`add_transition` only ever inserts, it never removes);
* each `parse_*` function of the source becomes a function
  `... → Store → Except BuildError (NFA × Store)`; raising an exception is
  the `.error` case;
* where the source iterates over a Python `set` in unspecified order, the
  embedding iterates in ascending numeric order of state identities
  (`sortedList`); all claims proved below are about the resulting sets of
  states/transitions, which are independent of that order;
* the worklist loop of `collect_reachable_states` is embedded with an
  explicit fuel that is proved (via a strictly decreasing potential `phi`)
  to be large enough, so that the function both reduces in the kernel and
  satisfies the loop's postconditions.
-/

namespace Thompson

/-- The reserved epsilon symbol `EPSILON = 'ε'` of `nfa.py`. -/
def EPSILON : Char := 'ε'

/-- Errors raised by the builder: the label-exhaustion exception of
`State.__init__` and the unrecognized-token exceptions of the dispatch
functions (`parse_regex_token` and friends). -/
inductive BuildError where
  | identityExhaustion : BuildError
  | unrecognized : String → BuildError
deriving DecidableEq, Repr

/-- The mutable world of `nfa.py`: the global label counter `current_label`
together with every transition of every `State` object, flattened to a set
of `(source, symbol, destination)` triples. -/
structure Store where
  next : Nat
  edges : Finset (Nat × Char × Nat)

/-- An automaton as in class `NFA`: one initial state and a set of
accepting states (the transition tables live in the `Store`). -/
structure NFA where
  initial : Nat
  accepting : Finset Nat

/-- A fresh store: counter at 65 (label `A`), no transitions. -/
def freshStore : Store := ⟨65, ∅⟩

/-!  Equality of stores, automata and builder results is decided through
`decidable_of_iff` on the components rather than by `deriving`: the
derived instances eliminate the component equality proofs with `Eq.rec`,
which blocks kernel reduction when two equal `Finset`s differ in their
underlying element order. -/

instance : DecidableEq Store := fun x y =>
  decidable_of_iff (x.next = y.next ∧ x.edges = y.edges)
    (by cases x; cases y; simp [Store.mk.injEq])

instance : DecidableEq NFA := fun x y =>
  decidable_of_iff (x.initial = y.initial ∧ x.accepting = y.accepting)
    (by cases x; cases y; simp [NFA.mk.injEq])

instance : DecidableEq (NFA × Store) := fun x y =>
  decidable_of_iff (x.1 = y.1 ∧ x.2 = y.2) (by cases x; cases y; simp [Prod.ext_iff])

instance {ε α : Type} [DecidableEq ε] [DecidableEq α] : DecidableEq (Except ε α) := fun x y =>
  match x, y with
  | .ok a, .ok b =>
      match decEq a b with
      | .isTrue h => .isTrue (congrArg Except.ok h)
      | .isFalse h => .isFalse (fun hc => h (Except.ok.inj hc))
  | .error a, .error b =>
      match decEq a b with
      | .isTrue h => .isTrue (congrArg Except.error h)
      | .isFalse h => .isFalse (fun hc => h (Except.error.inj hc))
  | .ok _, .error _ => .isFalse (fun hc => Except.noConfusion hc)
  | .error _, .ok _ => .isFalse (fun hc => Except.noConfusion hc)

/-- The transition table lookup `state.transitions[symbol]` (empty set when
the key is absent). -/
def transOf (st : Store) (s : Nat) (a : Char) : Finset Nat :=
  (st.edges.filter (fun e => e.1 = s ∧ e.2.1 = a)).image (fun e => e.2.2)

/-- All destinations of all outgoing transitions of `s`, regardless of
symbol: the successors followed by `collect_reachable_states`. -/
def succOf (E : Finset (Nat × Char × Nat)) (s : Nat) : Finset Nat :=
  (E.filter (fun e => e.1 = s)).image (fun e => e.2.2)

/-- Epsilon-only successors, used for epsilon closures. -/
def succEps (E : Finset (Nat × Char × Nat)) (s : Nat) : Finset Nat :=
  (E.filter (fun e => e.1 = s ∧ e.2.1 = EPSILON)).image (fun e => e.2.2)

/-- Every state mentioned by some transition triple. -/
def stateUniverse (E : Finset (Nat × Char × Nat)) : Finset Nat :=
  E.image (fun e => e.1) ∪ E.image (fun e => e.2.2)

/-- `State.add_transition`: insert one transition triple. -/
def addTransition (st : Store) (s : Nat) (a : Char) (t : Nat) : Store :=
  ⟨st.next, insert (s, a, t) st.edges⟩

/-- `State.__init__`: raise once the counter passes `65 + 26`, otherwise
hand out the current counter value as the new state and increment. -/
def newState (st : Store) : Except BuildError (Nat × Store) :=
  if st.next > 65 + 26 then .error .identityExhaustion
  else .ok (st.next, ⟨st.next + 1, st.edges⟩)

/-- Well-formed store: every transition endpoint was actually allocated
(its identity is below the counter).  This holds for every store the
builder produces from `freshStore`. -/
def WF (st : Store) : Prop :=
  ∀ e ∈ st.edges, e.1 < st.next ∧ e.2.2 < st.next

instance : DecidablePred WF := fun _ => Finset.decidableDforallFinset

/-- Enumerate a finite set of state identities in ascending order (the
embedding's stand-in for Python's set iteration order). -/
def sortedList (s : Finset Nat) : List Nat :=
  (List.range (s.sup id + 1)).filter (fun x => x ∈ s)

theorem mem_sortedList {s : Finset Nat} {x : Nat} : x ∈ sortedList s ↔ x ∈ s := by
  constructor
  · intro h
    simpa using (List.mem_filter.mp h).2
  · intro h
    refine List.mem_filter.mpr ⟨List.mem_range.mpr ?_, by simpa using h⟩
    exact Nat.lt_succ_of_le (Finset.le_sup (f := id) h)

theorem sortedList_nodup (s : Finset Nat) : (sortedList s).Nodup :=
  (List.nodup_range _).filter _

/-! ### The worklist loop of `collect_reachable_states`

`collectGo` is the `while` loop: pop a state from the stack, mark it
visited, push its not-yet-visited successors.  It is parametrised by the
successor function so that the same loop serves the all-symbols walk of
`collect_reachable_states` and the epsilon-only walk of the
epsilon-closure computation. -/

/-- One iteration per unit of fuel; `collectFuel` below always suffices. -/
def collectGo (succ : Nat → Finset Nat) : Nat → Finset Nat → List Nat → Finset Nat
  | 0, states, _ => states
  | fuel + 1, states, stack =>
    match stack with
    | [] => states
    | s :: rest =>
        let states' := insert s states
        let pushed := (sortedList (succ s)).filter (fun t => t ∉ states')
        collectGo succ fuel states' (pushed ++ rest)

/-- Flag of the termination potential: 1 when the state about to be popped
has already been visited. -/
def popFlag (states : Finset Nat) : List Nat → Nat
  | [] => 0
  | s :: _ => if s ∈ states then 1 else 0

/-- Termination potential of the worklist loop over a universe `U` of
states: it strictly decreases at every iteration (`phi_step_lt`). -/
def phi (U : Finset Nat) (states : Finset Nat) (stack : List Nat) : Nat :=
  2 * ((U.card + 1) * ((U ∪ stack.toFinset) \ states).card)
    + (U.card + 1) * popFlag states stack + stack.length

section WorklistLemmas

variable {succ : Nat → Finset Nat} {U : Finset Nat}

theorem step_sdiff_subset (hsucc : ∀ x, succ x ⊆ U) (states : Finset Nat) (s : Nat)
    (rest : List Nat) :
    (U ∪ (((sortedList (succ s)).filter (fun t => t ∉ insert s states)) ++ rest).toFinset)
        \ insert s states
      ⊆ (U ∪ (s :: rest).toFinset) \ states := by
  intro x hx
  rw [Finset.mem_sdiff] at hx ⊢
  obtain ⟨hx1, hx2⟩ := hx
  refine ⟨?_, fun hmem => hx2 (Finset.mem_insert_of_mem hmem)⟩
  rcases Finset.mem_union.mp hx1 with h | h
  · exact Finset.mem_union_left _ h
  · rcases List.mem_append.mp (List.mem_toFinset.mp h) with h | h
    · refine Finset.mem_union_left _ (hsucc s ?_)
      exact mem_sortedList.mp (List.mem_filter.mp h).1
    · exact Finset.mem_union_right _ (List.mem_toFinset.mpr (List.mem_cons_of_mem s h))

theorem card_step_le (hsucc : ∀ x, succ x ⊆ U) (states : Finset Nat) (s : Nat)
    (rest : List Nat) :
    ((U ∪ (((sortedList (succ s)).filter (fun t => t ∉ insert s states)) ++ rest).toFinset)
        \ insert s states).card
      ≤ ((U ∪ (s :: rest).toFinset) \ states).card :=
  Finset.card_le_card (step_sdiff_subset hsucc states s rest)

theorem card_step_lt (hsucc : ∀ x, succ x ⊆ U) (states : Finset Nat) (s : Nat)
    (rest : List Nat) (hs : s ∉ states) :
    ((U ∪ (((sortedList (succ s)).filter (fun t => t ∉ insert s states)) ++ rest).toFinset)
        \ insert s states).card
      < ((U ∪ (s :: rest).toFinset) \ states).card := by
  apply Finset.card_lt_card
  refine ⟨step_sdiff_subset hsucc states s rest, fun hsub => ?_⟩
  have hin : s ∈ (U ∪ (s :: rest).toFinset) \ states := by
    rw [Finset.mem_sdiff]
    exact ⟨Finset.mem_union_right _ (by simp), hs⟩
  have := hsub hin
  rw [Finset.mem_sdiff] at this
  exact this.2 (Finset.mem_insert_self s states)

theorem pushed_length_le (hsucc : ∀ x, succ x ⊆ U) (states : Finset Nat) (s : Nat) :
    ((sortedList (succ s)).filter (fun t => t ∉ insert s states)).length ≤ U.card := by
  set l := (sortedList (succ s)).filter (fun t => t ∉ insert s states) with hl
  have hnd : l.Nodup := (sortedList_nodup (succ s)).filter _
  have hsub : l.toFinset ⊆ U := by
    intro x hx
    have := List.mem_toFinset.mp hx
    exact hsucc s (mem_sortedList.mp (List.mem_filter.mp this).1)
  calc l.length = l.toFinset.card := (List.toFinset_card_of_nodup hnd).symm
    _ ≤ U.card := Finset.card_le_card hsub

/-- Pure arithmetic core of the potential decrease: `a` stands for
`K * C'`, `b` for `K * C`, `pl` for the number of freshly pushed states,
`f`/`f'` for the pop flags before and after the step. -/
theorem phi_lt_of (a b K pl L f f' : Nat)
    (hab : a ≤ b) (hf' : f' ≤ 1) (hpl : pl + 1 ≤ K)
    (hcase : (a + K ≤ b ∧ f = 0) ∨ (f = 1 ∧ (f' = 0 ∨ pl = 0))) :
    2 * a + K * f' + (pl + L) < 2 * b + K * f + (L + 1) := by
  rcases hcase with ⟨hle, hf⟩ | ⟨hf, hor⟩
  · subst hf
    rcases Nat.le_one_iff_eq_zero_or_eq_one.mp hf' with h' | h' <;> subst h' <;>
      simp only [Nat.mul_zero, Nat.mul_one] <;> omega
  · subst hf
    rcases hor with h | h
    · subst h
      simp only [Nat.mul_zero, Nat.mul_one]
      omega
    · subst h
      rcases Nat.le_one_iff_eq_zero_or_eq_one.mp hf' with h' | h' <;> subst h' <;>
        simp only [Nat.mul_zero, Nat.mul_one] <;> omega

/-- The potential strictly decreases at every iteration of the loop. -/
theorem phi_step_lt (hsucc : ∀ x, succ x ⊆ U) (states : Finset Nat) (s : Nat)
    (rest : List Nat) :
    phi U (insert s states)
        (((sortedList (succ s)).filter (fun t => t ∉ insert s states)) ++ rest)
      < phi U states (s :: rest) := by
  have hCle := card_step_le hsucc states s rest
  have hlen := pushed_length_le hsucc states s
  unfold phi
  rw [List.length_append, List.length_cons]
  have hflag' : popFlag (insert s states)
      (((sortedList (succ s)).filter (fun t => t ∉ insert s states)) ++ rest) ≤ 1 := by
    cases h : ((sortedList (succ s)).filter (fun t => t ∉ insert s states)) ++ rest with
    | nil => simp [popFlag]
    | cons a l => simp only [popFlag]; split <;> omega
  refine phi_lt_of _ _ _ _ rest.length _ _
    (Nat.mul_le_mul_left _ hCle) hflag' (by omega) ?_
  by_cases hs : s ∈ states
  · refine Or.inr ⟨by simp [popFlag, hs], ?_⟩
    cases hpe : (sortedList (succ s)).filter (fun t => t ∉ insert s states) with
    | nil => exact Or.inr (by simp)
    | cons p ps =>
      refine Or.inl ?_
      have hpmem : p ∈ (sortedList (succ s)).filter (fun t => t ∉ insert s states) := by
        rw [hpe]; exact List.mem_cons_self p ps
      have hnp : p ∉ insert s states := by
        have := (List.mem_filter.mp hpmem).2
        simpa using this
      simp [popFlag, hnp]
  · refine Or.inl ⟨?_, by simp [popFlag, hs]⟩
    have hClt := card_step_lt hsucc states s rest hs
    have := Nat.mul_le_mul_left (U.card + 1) hClt
    calc (U.card + 1) * ((U ∪ (((sortedList (succ s)).filter
            (fun t => t ∉ insert s states)) ++ rest).toFinset) \ insert s states).card
          + (U.card + 1)
        = (U.card + 1) * (((U ∪ (((sortedList (succ s)).filter
            (fun t => t ∉ insert s states)) ++ rest).toFinset) \ insert s states).card + 1) := by
          ring
      _ ≤ (U.card + 1) * ((U ∪ (s :: rest).toFinset) \ states).card :=
          Nat.mul_le_mul_left _ hClt

end WorklistLemmas

section WorklistPost

variable {succ : Nat → Finset Nat} {U : Finset Nat}

/-- Everything already visited or still on the stack ends up in the loop's
result, provided the fuel dominates the potential. -/
theorem collectGo_superset (hsucc : ∀ x, succ x ⊆ U) :
    ∀ (fuel : Nat) (states : Finset Nat) (stack : List Nat),
      phi U states stack < fuel →
      states ∪ stack.toFinset ⊆ collectGo succ fuel states stack := by
  intro fuel
  induction fuel with
  | zero =>
    intro states stack hphi
    omega
  | succ fuel ih =>
    intro states stack hphi
    cases stack with
    | nil =>
      simp [collectGo]
    | cons s rest =>
      have hstep := phi_step_lt hsucc states s rest
      have hlt : phi U (insert s states)
          (((sortedList (succ s)).filter (fun t => t ∉ insert s states)) ++ rest) < fuel := by
        omega
      have hsub := ih _ _ hlt
      simp only [collectGo]
      refine Finset.union_subset ?_ ?_
      · intro x hx
        exact hsub (Finset.mem_union_left _ (Finset.mem_insert_of_mem hx))
      · intro x hx
        rcases List.mem_cons.mp (List.mem_toFinset.mp hx) with h | h
        · exact hsub (Finset.mem_union_left _ (h ▸ Finset.mem_insert_self s states))
        · exact hsub (Finset.mem_union_right _
            (List.mem_toFinset.mpr (List.mem_append_right _ h)))

/-- The loop's result is closed under the successor function, provided the
visited set is closed up to the stack when the loop starts. -/
theorem collectGo_closed (hsucc : ∀ x, succ x ⊆ U) :
    ∀ (fuel : Nat) (states : Finset Nat) (stack : List Nat),
      phi U states stack < fuel →
      (∀ x ∈ states, succ x ⊆ states ∪ stack.toFinset) →
      ∀ x ∈ collectGo succ fuel states stack,
        succ x ⊆ collectGo succ fuel states stack := by
  intro fuel
  induction fuel with
  | zero =>
    intro states stack hphi
    omega
  | succ fuel ih =>
    intro states stack hphi hclosed
    cases stack with
    | nil =>
      intro x hx
      simp only [collectGo] at hx ⊢
      intro t ht
      have := hclosed x hx ht
      simpa using this
    | cons s rest =>
      have hstep := phi_step_lt hsucc states s rest
      have hlt : phi U (insert s states)
          (((sortedList (succ s)).filter (fun t => t ∉ insert s states)) ++ rest) < fuel := by
        omega
      simp only [collectGo]
      refine ih _ _ hlt ?_
      intro x hx t ht
      rcases Finset.mem_insert.mp hx with hxs | hxs
      · subst hxs
        by_cases htm : t ∈ insert x states
        · exact Finset.mem_union_left _ htm
        · refine Finset.mem_union_right _ (List.mem_toFinset.mpr
            (List.mem_append_left _ (List.mem_filter.mpr ⟨mem_sortedList.mpr ht, ?_⟩)))
          simpa using htm
      · have := hclosed x hxs ht
        rcases Finset.mem_union.mp this with h | h
        · exact Finset.mem_union_left _ (Finset.mem_insert_of_mem h)
        · rcases List.mem_cons.mp (List.mem_toFinset.mp h) with h2 | h2
          · exact Finset.mem_union_left _ (h2 ▸ Finset.mem_insert_self s states)
          · exact Finset.mem_union_right _
              (List.mem_toFinset.mpr (List.mem_append_right _ h2))

/-- The loop never leaves a successor-closed set containing its starting
data (needs no fuel hypothesis: stopping early only shrinks the result). -/
theorem collectGo_subset (T : Finset Nat) (hT : ∀ x ∈ T, succ x ⊆ T) :
    ∀ (fuel : Nat) (states : Finset Nat) (stack : List Nat),
      states ⊆ T → stack.toFinset ⊆ T →
      collectGo succ fuel states stack ⊆ T := by
  intro fuel
  induction fuel with
  | zero =>
    intro states stack hs _
    simpa [collectGo] using hs
  | succ fuel ih =>
    intro states stack hs hstack
    cases stack with
    | nil => simpa [collectGo] using hs
    | cons s rest =>
      simp only [collectGo]
      have hsT : s ∈ T := hstack (List.mem_toFinset.mpr (List.mem_cons_self s rest))
      refine ih _ _ (Finset.insert_subset hsT hs) ?_
      intro x hx
      rcases List.mem_append.mp (List.mem_toFinset.mp hx) with h | h
      · exact hT s hsT (mem_sortedList.mp (List.mem_filter.mp h).1)
      · exact hstack (List.mem_toFinset.mpr (List.mem_cons_of_mem s h))

end WorklistPost

/-- Fuel that dominates the initial potential of a walk starting at `s₀`
over the transition triples `E`. -/
def collectFuel (E : Finset (Nat × Char × Nat)) (s₀ : Nat) : Nat :=
  2 * (((stateUniverse E).card + 1) * (stateUniverse E ∪ {s₀}).card) + 2

/-- `NFA.collect_reachable_states`: the stack-based walk over every
outgoing transition regardless of symbol, started at `s₀`. -/
def collect_reachable_states (st : Store) (s₀ : Nat) : Finset Nat :=
  collectGo (succOf st.edges) (collectFuel st.edges s₀) ∅ [s₀]

/-- The epsilon closure of a state: the same worklist walk restricted to
epsilon transitions (includes the state itself). -/
def epsilonClosure (st : Store) (s : Nat) : Finset Nat :=
  collectGo (succEps st.edges) (collectFuel st.edges s) ∅ [s]

theorem succOf_subset_universe (E : Finset (Nat × Char × Nat)) (x : Nat) :
    succOf E x ⊆ stateUniverse E := by
  intro t ht
  obtain ⟨e, he, rfl⟩ := Finset.mem_image.mp ht
  exact Finset.mem_union_right _
    (Finset.mem_image.mpr ⟨e, (Finset.mem_filter.mp he).1, rfl⟩)

theorem succEps_subset_universe (E : Finset (Nat × Char × Nat)) (x : Nat) :
    succEps E x ⊆ stateUniverse E := by
  intro t ht
  obtain ⟨e, he, rfl⟩ := Finset.mem_image.mp ht
  exact Finset.mem_union_right _
    (Finset.mem_image.mpr ⟨e, (Finset.mem_filter.mp he).1, rfl⟩)

theorem phi_init_lt (E : Finset (Nat × Char × Nat)) (s₀ : Nat) :
    phi (stateUniverse E) ∅ [s₀] < collectFuel E s₀ := by
  unfold phi collectFuel popFlag
  simp

theorem mem_collect_self (st : Store) (s₀ : Nat) :
    s₀ ∈ collect_reachable_states st s₀ := by
  have h := collectGo_superset (succOf_subset_universe st.edges) _ ∅ [s₀]
    (phi_init_lt st.edges s₀)
  exact h (by simp)

theorem collect_closed (st : Store) (s₀ : Nat) :
    ∀ x ∈ collect_reachable_states st s₀,
      succOf st.edges x ⊆ collect_reachable_states st s₀ :=
  collectGo_closed (succOf_subset_universe st.edges) _ ∅ [s₀]
    (phi_init_lt st.edges s₀) (by simp)

theorem collect_subset (st : Store) (s₀ : Nat) (T : Finset Nat)
    (hT : ∀ x ∈ T, succOf st.edges x ⊆ T) (h0 : s₀ ∈ T) :
    collect_reachable_states st s₀ ⊆ T :=
  collectGo_subset T hT _ ∅ [s₀] (Finset.empty_subset T) (by simpa using h0)

theorem mem_epsilonClosure_self (st : Store) (s : Nat) :
    s ∈ epsilonClosure st s := by
  have h := collectGo_superset (succEps_subset_universe st.edges) _ ∅ [s]
    (phi_init_lt st.edges s)
  exact h (by simp)

theorem epsilonClosure_closed (st : Store) (s : Nat) :
    ∀ x ∈ epsilonClosure st s, succEps st.edges x ⊆ epsilonClosure st s :=
  collectGo_closed (succEps_subset_universe st.edges) _ ∅ [s]
    (phi_init_lt st.edges s) (by simp)

theorem epsilonClosure_subset (st : Store) (s : Nat) (T : Finset Nat)
    (hT : ∀ x ∈ T, succEps st.edges x ⊆ T) (h0 : s ∈ T) :
    epsilonClosure st s ⊆ T :=
  collectGo_subset T hT _ ∅ [s] (Finset.empty_subset T) (by simpa using h0)

/-! ### The syntax tree and the builder

`RegexToken` is the typed syntax tree consumed by `parse_regex_token`.
Python's builder dispatches on `isinstance` with a chain of intermediary
functions (`parse_operator_token`, `parse_unary_op_token`,
`parse_binary_op_token`) whose `else` branches raise on any object outside
the five known token classes; the constructor `other` stands for such a
foreign object, and the dispatch chain collapses into one match. -/

inductive RegexToken where
  | literal (c : Char)
  | union (l r : RegexToken)
  | intersection (l r : RegexToken)
  | concat (l r : RegexToken)
  | kleeneStar (t : RegexToken)
  | other (desc : String)
deriving DecidableEq, Repr

/-- `parse_literal_token`: two fresh states joined by one transition
labeled with the literal's symbol. -/
def parse_literal_token (c : Char) (st : Store) : Except BuildError (NFA × Store) :=
  match newState st with
  | .error e => .error e
  | .ok (i, st1) =>
    match newState st1 with
    | .error e => .error e
    | .ok (a, st2) => .ok (⟨i, {a}⟩, addTransition st2 i c a)

/-- The loop `for accept in srcs: accept.add_transition(EPSILON, dst)`
(used by `parse_concat_token` and `parse_kleene_star_token`); iteration
order is the embedding's canonical ascending order. -/
def addEpsEdgesTo (st : Store) (srcs : Finset Nat) (dst : Nat) : Store :=
  (sortedList srcs).foldl (fun acc q => addTransition acc q EPSILON dst) st

/-- Tail of `parse_union_token` after both children are built: one fresh
initial state with epsilon transitions to both sub-initials; accepting set
is the union of the sub-accepting sets. -/
def unionStep (left right : NFA) (st : Store) : Except BuildError (NFA × Store) :=
  match newState st with
  | .error e => .error e
  | .ok (i, st1) =>
      .ok (⟨i, left.accepting ∪ right.accepting⟩,
        addTransition (addTransition st1 i EPSILON left.initial) i EPSILON right.initial)

/-- Tail of `parse_concat_token` after both children are built: reuse
left's initial and right's accepting set; bridge every left-accepting
state to right's initial by an epsilon transition.  No state is created. -/
def concatStep (left right : NFA) (st : Store) : Except BuildError (NFA × Store) :=
  .ok (⟨left.initial, right.accepting⟩, addEpsEdgesTo st left.accepting right.initial)

/-- Tail of `parse_kleene_star_token` after the target is built: one fresh
state, both initial and accepting, with an epsilon transition to the
target's initial; every target-accepting state loops back to the target's
initial by an epsilon transition. -/
def kleeneStarStep (root : NFA) (st : Store) : Except BuildError (NFA × Store) :=
  match newState st with
  | .error e => .error e
  | .ok (i, st1) =>
      .ok (⟨i, insert i root.accepting⟩,
        addEpsEdgesTo (addTransition st1 i EPSILON root.initial) root.accepting root.initial)

/-- The `{ pair: State() for pair in compute_pairs(...) }` comprehension:
one `State()` call per pair, in sequence; only the counter effect matters,
the pair-to-state mapping itself is the arithmetic function `pid` below. -/
def allocStates : Nat → Store → Except BuildError Store
  | 0, st => .ok st
  | n + 1, st =>
    match newState st with
    | .error e => .error e
    | .ok (_, st1) => allocStates n st1

/-- `compute_pairs(left_states, right_states)`: the cross product of the
two reachable-state sets, enumerated left-outer/right-inner as Python's
`itertools.product` does (in the embedding's canonical element order). -/
def pairListOf (ls rs : Finset Nat) : List (Nat × Nat) :=
  (sortedList ls).flatMap (fun l => (sortedList rs).map (fun r => (l, r)))

/-- Position of a pair in the enumeration: the `State()` of the dict
comprehension that allocated the product state for this pair was the
`idxIn`-th allocation. -/
def idxIn : List (Nat × Nat) → (Nat × Nat) → Nat
  | [], _ => 0
  | p :: ps, q => if q = p then 0 else idxIn ps q + 1

/-- The symbols appearing on some outgoing transition of `s`
(`state.transitions.keys()`). -/
def rowSymbols (st : Store) (s : Nat) : Finset Char :=
  (st.edges.filter (fun e => e.1 = s)).image (fun e => e.2.1)

/-- `common_symbols` of `parse_intersection_token`: symbols present in the
outgoing tables of both states, with `EPSILON` discarded. -/
def commonSymbols (st : Store) (ls rs : Nat) : Finset Char :=
  ((rowSymbols st ls) ∩ (rowSymbols st rs)).erase EPSILON

/-- The transitions `parse_intersection_token` adds for the product state
of the pair `p`: synchronized moves on every common non-epsilon symbol,
and, when either component has an epsilon move, epsilon moves to every
combination of (epsilon-destinations ∪ {the component itself}). -/
def productPairEdges (st : Store) (pid : Nat × Nat → Nat) (p : Nat × Nat) :
    Finset (Nat × Char × Nat) :=
  (commonSymbols st p.1 p.2).biUnion (fun a =>
    ((transOf st p.1 a) ×ˢ (transOf st p.2 a)).image (fun q => (pid p, a, pid q)))
  ∪ (if transOf st p.1 EPSILON ≠ ∅ ∨ transOf st p.2 EPSILON ≠ ∅ then
      ((insert p.1 (transOf st p.1 EPSILON)) ×ˢ (insert p.2 (transOf st p.2 EPSILON))).image
        (fun q => (pid p, EPSILON, pid q))
    else ∅)

/-- The `product_states` dict of `parse_intersection_token`, read as the
enumeration of the pairs of reachable states (`compute_pairs(left_states,
right_states)` in the dict comprehension's iteration order). -/
def interPairs (st : Store) (left right : NFA) : List (Nat × Nat) :=
  pairListOf (collect_reachable_states st left.initial)
    (collect_reachable_states st right.initial)

/-- The state identity `product_states[q]` assigned to the pair `q`: the
counter stood at `st.next` when the dict comprehension started and the
pair's `State()` was its `idxIn`-th call. -/
def interPid (st : Store) (left right : NFA) (q : Nat × Nat) : Nat :=
  st.next + idxIn (interPairs st left right) q

/-- The accepting set of the product: every product state whose pair has
both components accepting in their own automaton. -/
def interAccepting (st : Store) (left right : NFA) : Finset Nat :=
  (((collect_reachable_states st left.initial) ×ˢ (collect_reachable_states st right.initial)).filter
    (fun p => p.1 ∈ left.accepting ∧ p.2 ∈ right.accepting)).image (interPid st left right)

/-- All transitions the loop of `parse_intersection_token` adds: the
synchronized transitions of every product pair. -/
def interEdges (st : Store) (left right : NFA) : Finset (Nat × Char × Nat) :=
  ((collect_reachable_states st left.initial) ×ˢ (collect_reachable_states st right.initial)).biUnion
    (productPairEdges st (interPid st left right))

/-- `parse_intersection_token` after both children are built: allocate one
product state per pair of reachable states (`allocStates`, which raises
exactly when the dict comprehension's `State()` calls would), wire the
synchronized transitions, take as initial the product state of the pair of
the two initials and as accepting every pair of accepting states.  The
dict lookups `product_states[...]` in the loop are `interPid` applied to
pairs of reachable states, which are always present in the dict (so the
lookups cannot fail), and exactly one pair equals
`(left.initial, right.initial)` (so the defensive uniqueness assert on the
initial pair cannot fire). -/
def intersect (left right : NFA) (st : Store) : Except BuildError (NFA × Store) :=
  match allocStates (interPairs st left right).length st with
  | .error e => .error e
  | .ok st1 =>
      .ok (⟨interPid st left right (left.initial, right.initial), interAccepting st left right⟩,
        ⟨st1.next, st.edges ∪ interEdges st left right⟩)

/-- `parse_regex_token`: structural dispatch over the token.  The four
operator arms first build their children recursively, exactly as
`parse_union_token`, `parse_intersection_token`, `parse_concat_token` and
`parse_kleene_star_token` do, then run the corresponding step; a foreign
token hits the `else: raise` of the dispatch chain. -/
def parse_regex_token : RegexToken → Store → Except BuildError (NFA × Store)
  | .literal c, st => parse_literal_token c st
  | .union l r, st =>
    match parse_regex_token l st with
    | .error e => .error e
    | .ok (left, st1) =>
      match parse_regex_token r st1 with
      | .error e => .error e
      | .ok (right, st2) => unionStep left right st2
  | .intersection l r, st =>
    match parse_regex_token l st with
    | .error e => .error e
    | .ok (left, st1) =>
      match parse_regex_token r st1 with
      | .error e => .error e
      | .ok (right, st2) => intersect left right st2
  | .concat l r, st =>
    match parse_regex_token l st with
    | .error e => .error e
    | .ok (left, st1) =>
      match parse_regex_token r st1 with
      | .error e => .error e
      | .ok (right, st2) => concatStep left right st2
  | .kleeneStar t, st =>
    match parse_regex_token t st with
    | .error e => .error e
    | .ok (root, st1) => kleeneStarStep root st1
  | .other d, _ => .error (.unrecognized d)

/-! ### Language semantics

A run threads a word through the transition triples; epsilon moves consume
no input.  These notions are the mathematical reading of "the automaton
accepts the string" and are not part of the source (which never executes
its automata). -/

/-- A run from `s` to `u` spelling the word `w` over the triples `E`. -/
inductive Run (E : Finset (Nat × Char × Nat)) : Nat → List Char → Nat → Prop where
  | nil (s : Nat) : Run E s [] s
  | sym {s t u : Nat} {a : Char} {w : List Char} :
      a ≠ EPSILON → (s, a, t) ∈ E → Run E t w u → Run E s (a :: w) u
  | eps {s t u : Nat} {w : List Char} :
      (s, EPSILON, t) ∈ E → Run E t w u → Run E s w u

/-- The automaton accepts `w`: some accepting state ends a run from the
initial state spelling `w`. -/
def Accepts (st : Store) (nfa : NFA) (w : List Char) : Prop :=
  ∃ f ∈ nfa.accepting, Run st.edges nfa.initial w f

/-- Graph reachability along transitions of any label. -/
inductive Reach (E : Finset (Nat × Char × Nat)) (s : Nat) : Nat → Prop where
  | refl : Reach E s s
  | step {t u : Nat} : Reach E s t → u ∈ succOf E t → Reach E s u

/-! ### Basic facts about the store operations -/

theorem mem_transOf {st : Store} {s t : Nat} {a : Char} :
    t ∈ transOf st s a ↔ (s, a, t) ∈ st.edges := by
  simp only [transOf, Finset.mem_image, Finset.mem_filter]
  constructor
  · rintro ⟨⟨e1, e2, e3⟩, ⟨hmem, rfl, rfl⟩, rfl⟩
    exact hmem
  · intro h
    exact ⟨(s, a, t), ⟨h, rfl, rfl⟩, rfl⟩

theorem mem_succOf {E : Finset (Nat × Char × Nat)} {s t : Nat} :
    t ∈ succOf E s ↔ ∃ a, (s, a, t) ∈ E := by
  simp only [succOf, Finset.mem_image, Finset.mem_filter]
  constructor
  · rintro ⟨⟨e1, e2, e3⟩, ⟨hmem, rfl⟩, rfl⟩
    exact ⟨e2, hmem⟩
  · rintro ⟨a, h⟩
    exact ⟨(s, a, t), ⟨h, rfl⟩, rfl⟩

theorem mem_succEps {E : Finset (Nat × Char × Nat)} {s t : Nat} :
    t ∈ succEps E s ↔ (s, EPSILON, t) ∈ E := by
  simp only [succEps, Finset.mem_image, Finset.mem_filter]
  constructor
  · rintro ⟨⟨e1, e2, e3⟩, ⟨hmem, rfl, rfl⟩, rfl⟩
    exact hmem
  · intro h
    exact ⟨(s, EPSILON, t), ⟨h, rfl, rfl⟩, rfl⟩

theorem mem_rowSymbols {st : Store} {s : Nat} {a : Char} :
    a ∈ rowSymbols st s ↔ ∃ t, (s, a, t) ∈ st.edges := by
  simp only [rowSymbols, Finset.mem_image, Finset.mem_filter]
  constructor
  · rintro ⟨⟨e1, e2, e3⟩, ⟨hmem, rfl⟩, rfl⟩
    exact ⟨e3, hmem⟩
  · rintro ⟨t, h⟩
    exact ⟨(s, a, t), ⟨h, rfl⟩, rfl⟩

theorem sortedList_toFinset (s : Finset Nat) : (sortedList s).toFinset = s := by
  apply Finset.ext
  intro x
  rw [List.mem_toFinset, mem_sortedList]

/-! ### The epsilon-bridging loop -/

theorem foldl_addTransition_next (dst : Nat) (l : List Nat) (st : Store) :
    (l.foldl (fun acc q => addTransition acc q EPSILON dst) st).next = st.next := by
  induction l generalizing st with
  | nil => rfl
  | cons p ps ih =>
    rw [List.foldl_cons, ih]
    rfl

theorem foldl_addTransition_edges (dst : Nat) (l : List Nat) (st : Store) :
    (l.foldl (fun acc q => addTransition acc q EPSILON dst) st).edges
      = st.edges ∪ l.toFinset.image (fun q => (q, EPSILON, dst)) := by
  induction l generalizing st with
  | nil => simp
  | cons p ps ih =>
    rw [List.foldl_cons, ih]
    show insert (p, EPSILON, dst) st.edges ∪ _ = _
    rw [List.toFinset_cons, Finset.image_insert, Finset.insert_union, Finset.union_insert]

theorem addEpsEdgesTo_next (st : Store) (srcs : Finset Nat) (dst : Nat) :
    (addEpsEdgesTo st srcs dst).next = st.next :=
  foldl_addTransition_next dst (sortedList srcs) st

theorem addEpsEdgesTo_edges (st : Store) (srcs : Finset Nat) (dst : Nat) :
    (addEpsEdgesTo st srcs dst).edges
      = st.edges ∪ srcs.image (fun q => (q, EPSILON, dst)) := by
  rw [addEpsEdgesTo, foldl_addTransition_edges, sortedList_toFinset]

/-! ### Allocation -/

theorem allocStates_ok : ∀ {n : Nat} {st st1 : Store}, allocStates n st = .ok st1 →
    st1.next = st.next + n ∧ st1.edges = st.edges ∧ (n = 0 ∨ st1.next ≤ 65 + 26 + 1) := by
  intro n
  induction n with
  | zero =>
    intro st st1 h
    obtain rfl : st = st1 := by simpa [allocStates] using h
    exact ⟨rfl, rfl, Or.inl rfl⟩
  | succ n ih =>
    intro st st1 h
    rw [allocStates, newState] at h
    by_cases hgt : st.next > 65 + 26
    · rw [if_pos hgt] at h
      cases h
    · rw [if_neg hgt] at h
      obtain ⟨h1, h2, h3⟩ := ih h
      refine ⟨by simp at h1; omega, h2, Or.inr ?_⟩
      rcases h3 with h3 | h3
      · simp [h3] at h1
        omega
      · exact h3

theorem allocStates_error {n : Nat} {st : Store} {e : BuildError}
    (h : allocStates n st = .error e) : e = .identityExhaustion := by
  induction n generalizing st with
  | zero => simp [allocStates] at h
  | succ n ih =>
    rw [allocStates, newState] at h
    by_cases hgt : st.next > 65 + 26
    · rw [if_pos hgt] at h
      exact (Except.error.inj h).symm
    · rw [if_neg hgt] at h
      exact ih h

/-! ### Pair enumeration -/

theorem mem_pairListOf {ls rs : Finset Nat} {p : Nat × Nat} :
    p ∈ pairListOf ls rs ↔ p.1 ∈ ls ∧ p.2 ∈ rs := by
  cases p with
  | mk a b =>
    simp only [pairListOf, List.mem_flatMap, List.mem_map, Prod.mk.injEq]
    constructor
    · rintro ⟨l, hl, r, hr, rfl, rfl⟩
      exact ⟨mem_sortedList.mp hl, mem_sortedList.mp hr⟩
    · rintro ⟨ha, hb⟩
      exact ⟨a, mem_sortedList.mpr ha, b, mem_sortedList.mpr hb, rfl, rfl⟩

theorem pairListOf_nodup (ls rs : Finset Nat) : (pairListOf ls rs).Nodup := by
  rw [pairListOf, List.nodup_flatMap]
  refine ⟨fun l _ => ?_, ?_⟩
  · exact (sortedList_nodup rs).map (fun r r' h => by simpa using congrArg Prod.snd h)
  · have h : List.Pairwise (fun a b => a ≠ b) (sortedList ls) := sortedList_nodup ls
    refine h.imp ?_
    intro a b hne
    simp only [Function.onFun]
    intro p hp hp'
    obtain ⟨r, _, rfl⟩ := List.mem_map.mp hp
    obtain ⟨r', _, heq⟩ := List.mem_map.mp hp'
    exact hne (by simpa using congrArg Prod.fst heq.symm)

theorem idxIn_lt_length {l : List (Nat × Nat)} {q : Nat × Nat} (h : q ∈ l) :
    idxIn l q < l.length := by
  induction l with
  | nil => cases h
  | cons p ps ih =>
    rw [idxIn]
    by_cases hq : q = p
    · simp [hq]
    · rcases List.mem_cons.mp h with h' | h'
      · exact absurd h' hq
      · simpa [hq] using ih h'

theorem idxIn_inj {l : List (Nat × Nat)} (hnd : l.Nodup) {q r : Nat × Nat}
    (hq : q ∈ l) (hr : r ∈ l) (h : idxIn l q = idxIn l r) : q = r := by
  induction l with
  | nil => cases hq
  | cons p ps ih =>
    rw [idxIn, idxIn] at h
    by_cases h1 : q = p <;> by_cases h2 : r = p
    · rw [h1, h2]
    · rw [if_pos h1, if_neg h2] at h
      omega
    · rw [if_neg h1, if_pos h2] at h
      omega
    · rw [if_neg h1, if_neg h2] at h
      have hq' : q ∈ ps := (List.mem_cons.mp hq).resolve_left h1
      have hr' : r ∈ ps := (List.mem_cons.mp hr).resolve_left h2
      exact ih (List.Nodup.of_cons hnd) hq' hr' (by omega)

/-! ### Elimination lemmas for the builder steps -/

theorem newState_ok {st : Store} {i : Nat} {st1 : Store}
    (h : newState st = .ok (i, st1)) :
    st.next ≤ 65 + 26 ∧ i = st.next ∧ st1 = ⟨st.next + 1, st.edges⟩ := by
  rw [newState] at h
  by_cases hgt : st.next > 65 + 26
  · rw [if_pos hgt] at h
    cases h
  · rw [if_neg hgt] at h
    obtain ⟨h1, h2⟩ := Prod.mk.injEq .. ▸ Except.ok.inj h
    exact ⟨by omega, h1.symm, h2.symm⟩

theorem parse_literal_ok {c : Char} {st : Store} {nfa : NFA} {st' : Store}
    (h : parse_literal_token c st = .ok (nfa, st')) :
    st.next + 1 ≤ 65 + 26 ∧ nfa = ⟨st.next, {st.next + 1}⟩
      ∧ st' = ⟨st.next + 2, insert (st.next, c, st.next + 1) st.edges⟩ := by
  rw [parse_literal_token] at h
  split at h
  · cases h
  · rename_i i stA h1
    obtain ⟨hb1, rfl, rfl⟩ := newState_ok h1
    split at h
    · cases h
    · rename_i a stB h2
      obtain ⟨hb2, rfl, rfl⟩ := newState_ok h2
      obtain ⟨h3, h4⟩ := Prod.mk.injEq .. ▸ Except.ok.inj h
      refine ⟨by simpa using hb2, h3.symm, h4.symm⟩

theorem unionStep_ok {left right : NFA} {st : Store} {nfa : NFA} {st' : Store}
    (h : unionStep left right st = .ok (nfa, st')) :
    st.next ≤ 65 + 26 ∧ nfa = ⟨st.next, left.accepting ∪ right.accepting⟩
      ∧ st' = ⟨st.next + 1,
          insert (st.next, EPSILON, right.initial)
            (insert (st.next, EPSILON, left.initial) st.edges)⟩ := by
  rw [unionStep] at h
  split at h
  · cases h
  · rename_i i stA h1
    obtain ⟨hb, rfl, rfl⟩ := newState_ok h1
    obtain ⟨h3, h4⟩ := Prod.mk.injEq .. ▸ Except.ok.inj h
    exact ⟨hb, h3.symm, h4.symm⟩

theorem concatStep_ok {left right : NFA} {st : Store} {nfa : NFA} {st' : Store}
    (h : concatStep left right st = .ok (nfa, st')) :
    nfa = ⟨left.initial, right.accepting⟩ ∧ st'.next = st.next
      ∧ st'.edges = st.edges ∪ left.accepting.image (fun q => (q, EPSILON, right.initial)) := by
  obtain ⟨h1, h2⟩ := Prod.mk.injEq .. ▸ Except.ok.inj h
  refine ⟨h1.symm, ?_, ?_⟩
  · rw [← h2, addEpsEdgesTo_next]
  · rw [← h2, addEpsEdgesTo_edges]

theorem kleeneStarStep_ok {root : NFA} {st : Store} {nfa : NFA} {st' : Store}
    (h : kleeneStarStep root st = .ok (nfa, st')) :
    st.next ≤ 65 + 26 ∧ nfa = ⟨st.next, insert st.next root.accepting⟩
      ∧ st'.next = st.next + 1
      ∧ st'.edges = insert (st.next, EPSILON, root.initial) st.edges
          ∪ root.accepting.image (fun q => (q, EPSILON, root.initial)) := by
  rw [kleeneStarStep] at h
  split at h
  · cases h
  · rename_i i stA h1
    obtain ⟨hb, rfl, rfl⟩ := newState_ok h1
    obtain ⟨h3, h4⟩ := Prod.mk.injEq .. ▸ Except.ok.inj h
    refine ⟨hb, h3.symm, ?_, ?_⟩
    · rw [← h4, addEpsEdgesTo_next]
      rfl
    · rw [← h4, addEpsEdgesTo_edges]
      rfl

theorem intersect_ok {left right : NFA} {st : Store} {nfa : NFA} {st' : Store}
    (h : intersect left right st = .ok (nfa, st')) :
    nfa = ⟨interPid st left right (left.initial, right.initial), interAccepting st left right⟩
      ∧ st'.next = st.next + (interPairs st left right).length
      ∧ st'.edges = st.edges ∪ interEdges st left right
      ∧ ((interPairs st left right).length = 0 ∨ st'.next ≤ 65 + 26 + 1) := by
  rw [intersect] at h
  split at h
  · cases h
  · rename_i st1 h1
    obtain ⟨hn, _, hb⟩ := allocStates_ok h1
    obtain ⟨h3, h4⟩ := Prod.mk.injEq .. ▸ Except.ok.inj h
    refine ⟨h3.symm, ?_, ?_, ?_⟩
    · rw [← h4]
      exact hn
    · rw [← h4]
    · rw [← h4]
      exact hb

/-! ### Elimination lemmas for the recursive dispatch -/

theorem parse_union_ok {l r : RegexToken} {st : Store} {nfa : NFA} {st' : Store}
    (h : parse_regex_token (.union l r) st = .ok (nfa, st')) :
    ∃ left st1 right st2, parse_regex_token l st = .ok (left, st1)
      ∧ parse_regex_token r st1 = .ok (right, st2)
      ∧ unionStep left right st2 = .ok (nfa, st') := by
  rw [parse_regex_token] at h
  split at h
  · cases h
  · rename_i left st1 h1
    split at h
    · cases h
    · rename_i right st2 h2
      exact ⟨left, st1, right, st2, h1, h2, h⟩

theorem parse_intersection_ok {l r : RegexToken} {st : Store} {nfa : NFA} {st' : Store}
    (h : parse_regex_token (.intersection l r) st = .ok (nfa, st')) :
    ∃ left st1 right st2, parse_regex_token l st = .ok (left, st1)
      ∧ parse_regex_token r st1 = .ok (right, st2)
      ∧ intersect left right st2 = .ok (nfa, st') := by
  rw [parse_regex_token] at h
  split at h
  · cases h
  · rename_i left st1 h1
    split at h
    · cases h
    · rename_i right st2 h2
      exact ⟨left, st1, right, st2, h1, h2, h⟩

theorem parse_concat_ok {l r : RegexToken} {st : Store} {nfa : NFA} {st' : Store}
    (h : parse_regex_token (.concat l r) st = .ok (nfa, st')) :
    ∃ left st1 right st2, parse_regex_token l st = .ok (left, st1)
      ∧ parse_regex_token r st1 = .ok (right, st2)
      ∧ concatStep left right st2 = .ok (nfa, st') := by
  rw [parse_regex_token] at h
  split at h
  · cases h
  · rename_i left st1 h1
    split at h
    · cases h
    · rename_i right st2 h2
      exact ⟨left, st1, right, st2, h1, h2, h⟩

theorem parse_kleene_ok {t : RegexToken} {st : Store} {nfa : NFA} {st' : Store}
    (h : parse_regex_token (.kleeneStar t) st = .ok (nfa, st')) :
    ∃ root st1, parse_regex_token t st = .ok (root, st1)
      ∧ kleeneStarStep root st1 = .ok (nfa, st') := by
  rw [parse_regex_token] at h
  split at h
  · cases h
  · rename_i root st1 h1
    exact ⟨root, st1, h1, h⟩

/-! ### The product states -/

theorem mem_interPairs {st : Store} {left right : NFA} {q : Nat × Nat} :
    q ∈ interPairs st left right
      ↔ q.1 ∈ collect_reachable_states st left.initial
        ∧ q.2 ∈ collect_reachable_states st right.initial :=
  mem_pairListOf

theorem interPid_ge (st : Store) (left right : NFA) (q : Nat × Nat) :
    st.next ≤ interPid st left right q :=
  Nat.le_add_right _ _

theorem interPid_lt {st : Store} {left right : NFA} {q : Nat × Nat}
    (hq : q ∈ interPairs st left right) :
    interPid st left right q < st.next + (interPairs st left right).length :=
  Nat.add_lt_add_left (idxIn_lt_length hq) _

theorem interPid_inj {st : Store} {left right : NFA} {q r : Nat × Nat}
    (hq : q ∈ interPairs st left right) (hr : r ∈ interPairs st left right)
    (h : interPid st left right q = interPid st left right r) : q = r := by
  have h' : idxIn (interPairs st left right) q = idxIn (interPairs st left right) r := by
    rw [interPid, interPid] at h
    omega
  exact idxIn_inj (pairListOf_nodup _ _) hq hr h'

/-- Characterization of the transitions the product loop adds for one
pair. -/
theorem mem_productPairEdges {st : Store} {pid : Nat × Nat → Nat} {p : Nat × Nat}
    {e : Nat × Char × Nat} :
    e ∈ productPairEdges st pid p
      ↔ ((∃ a, a ≠ EPSILON ∧ ∃ nl ∈ transOf st p.1 a, ∃ nr ∈ transOf st p.2 a,
            e = (pid p, a, pid (nl, nr)))
        ∨ ((transOf st p.1 EPSILON ≠ ∅ ∨ transOf st p.2 EPSILON ≠ ∅)
            ∧ ∃ nl ∈ insert p.1 (transOf st p.1 EPSILON),
              ∃ nr ∈ insert p.2 (transOf st p.2 EPSILON),
                e = (pid p, EPSILON, pid (nl, nr)))) := by
  rw [productPairEdges, Finset.mem_union]
  constructor
  · rintro (h | h)
    · obtain ⟨a, ha, h⟩ := Finset.mem_biUnion.mp h
      obtain ⟨⟨nl, nr⟩, hq, rfl⟩ := Finset.mem_image.mp h
      obtain ⟨hl, hr⟩ := Finset.mem_product.mp hq
      have hane : a ≠ EPSILON := Finset.ne_of_mem_erase ha
      exact Or.inl ⟨a, hane, nl, hl, nr, hr, rfl⟩
    · by_cases hc : transOf st p.1 EPSILON ≠ ∅ ∨ transOf st p.2 EPSILON ≠ ∅
      · rw [if_pos hc] at h
        obtain ⟨⟨nl, nr⟩, hq, rfl⟩ := Finset.mem_image.mp h
        obtain ⟨hl, hr⟩ := Finset.mem_product.mp hq
        exact Or.inr ⟨hc, nl, hl, nr, hr, rfl⟩
      · rw [if_neg hc] at h
        cases Finset.not_mem_empty _ h
  · rintro (⟨a, hane, nl, hl, nr, hr, rfl⟩ | ⟨hc, nl, hl, nr, hr, rfl⟩)
    · refine Or.inl (Finset.mem_biUnion.mpr ⟨a, ?_, ?_⟩)
      · refine Finset.mem_erase.mpr ⟨hane, Finset.mem_inter.mpr ⟨?_, ?_⟩⟩
        · exact mem_rowSymbols.mpr ⟨nl, mem_transOf.mp hl⟩
        · exact mem_rowSymbols.mpr ⟨nr, mem_transOf.mp hr⟩
      · exact Finset.mem_image.mpr ⟨(nl, nr), Finset.mem_product.mpr ⟨hl, hr⟩, rfl⟩
    · refine Or.inr ?_
      rw [if_pos hc]
      exact Finset.mem_image.mpr ⟨(nl, nr), Finset.mem_product.mpr ⟨hl, hr⟩, rfl⟩

/-- Every endpoint of a product transition is a freshly allocated product
state. -/
theorem mem_interEdges_bound {st : Store} {left right : NFA} {e : Nat × Char × Nat}
    (he : e ∈ interEdges st left right) :
    st.next ≤ e.1 ∧ e.1 < st.next + (interPairs st left right).length
      ∧ st.next ≤ e.2.2 ∧ e.2.2 < st.next + (interPairs st left right).length := by
  obtain ⟨p, hp, hmem⟩ := Finset.mem_biUnion.mp he
  obtain ⟨hp1, hp2⟩ := Finset.mem_product.mp hp
  have hpp : p ∈ interPairs st left right := mem_interPairs.mpr ⟨hp1, hp2⟩
  have closedL := collect_closed st left.initial
  have closedR := collect_closed st right.initial
  rcases mem_productPairEdges.mp hmem with ⟨a, _, nl, hl, nr, hr, rfl⟩ | ⟨_, nl, hl, nr, hr, rfl⟩
  · have hnl : nl ∈ collect_reachable_states st left.initial :=
      closedL p.1 hp1 (mem_succOf.mpr ⟨a, mem_transOf.mp hl⟩)
    have hnr : nr ∈ collect_reachable_states st right.initial :=
      closedR p.2 hp2 (mem_succOf.mpr ⟨a, mem_transOf.mp hr⟩)
    have hq : (nl, nr) ∈ interPairs st left right := mem_interPairs.mpr ⟨hnl, hnr⟩
    exact ⟨interPid_ge st left right p, interPid_lt hpp,
      interPid_ge st left right (nl, nr), interPid_lt hq⟩
  · have hnl : nl ∈ collect_reachable_states st left.initial := by
      rcases Finset.mem_insert.mp hl with h | h
      · exact h ▸ hp1
      · exact closedL p.1 hp1 (mem_succOf.mpr ⟨EPSILON, mem_transOf.mp h⟩)
    have hnr : nr ∈ collect_reachable_states st right.initial := by
      rcases Finset.mem_insert.mp hr with h | h
      · exact h ▸ hp2
      · exact closedR p.2 hp2 (mem_succOf.mpr ⟨EPSILON, mem_transOf.mp h⟩)
    have hq : (nl, nr) ∈ interPairs st left right := mem_interPairs.mpr ⟨hnl, hnr⟩
    exact ⟨interPid_ge st left right p, interPid_lt hpp,
      interPid_ge st left right (nl, nr), interPid_lt hq⟩

theorem mem_interAccepting {st : Store} {left right : NFA} {x : Nat} :
    x ∈ interAccepting st left right
      ↔ ∃ p ∈ interPairs st left right,
          p.1 ∈ left.accepting ∧ p.2 ∈ right.accepting ∧ x = interPid st left right p := by
  rw [interAccepting]
  constructor
  · intro h
    obtain ⟨p, hp, rfl⟩ := Finset.mem_image.mp h
    obtain ⟨hmem, hacc⟩ := Finset.mem_filter.mp hp
    obtain ⟨h1, h2⟩ := Finset.mem_product.mp hmem
    exact ⟨p, mem_interPairs.mpr ⟨h1, h2⟩, hacc.1, hacc.2, rfl⟩
  · rintro ⟨p, hp, h1, h2, rfl⟩
    obtain ⟨hm1, hm2⟩ := mem_interPairs.mp hp
    exact Finset.mem_image.mpr
      ⟨p, Finset.mem_filter.mpr ⟨Finset.mem_product.mpr ⟨hm1, hm2⟩, h1, h2⟩, rfl⟩

/-! ### Runs and reachability -/

theorem run_mono {E E' : Finset (Nat × Char × Nat)} (hE : E ⊆ E') {s u : Nat}
    {w : List Char} (h : Run E s w u) : Run E' s w u := by
  induction h with
  | nil s => exact Run.nil s
  | sym hne he _ ih => exact Run.sym hne (hE he) ih
  | eps he _ ih => exact Run.eps (hE he) ih

theorem Run.mem_closed {E : Finset (Nat × Char × Nat)} {T : Finset Nat}
    (hT : ∀ x ∈ T, succOf E x ⊆ T) {s u : Nat} {w : List Char}
    (h : Run E s w u) (hs : s ∈ T) : u ∈ T := by
  induction h with
  | nil s => exact hs
  | sym hne he _ ih => exact ih (hT _ hs (mem_succOf.mpr ⟨_, he⟩))
  | eps he _ ih => exact ih (hT _ hs (mem_succOf.mpr ⟨_, he⟩))

theorem run_mem_collect {st : Store} {s u : Nat} {w : List Char}
    (h : Run st.edges s w u) : u ∈ collect_reachable_states st s :=
  Run.mem_closed (collect_closed st s) h (mem_collect_self st s)

theorem reach_mono {E E' : Finset (Nat × Char × Nat)} (hE : E ⊆ E') {s u : Nat}
    (h : Reach E s u) : Reach E' s u := by
  induction h with
  | refl => exact Reach.refl
  | step _ hsucc ih =>
    refine Reach.step ih ?_
    obtain ⟨a, he⟩ := mem_succOf.mp hsucc
    exact mem_succOf.mpr ⟨a, hE he⟩

theorem Reach.trans {E : Finset (Nat × Char × Nat)} {s t u : Nat}
    (h1 : Reach E s t) (h2 : Reach E t u) : Reach E s u := by
  induction h2 with
  | refl => exact h1
  | step _ hsucc ih => exact Reach.step ih hsucc

theorem reach_mem_collect {st : Store} {s u : Nat} (h : Reach st.edges s u) :
    u ∈ collect_reachable_states st s := by
  induction h with
  | refl => exact mem_collect_self st s
  | step _ hsucc ih => exact collect_closed st s _ ih hsucc

/-! Component forms of the step lemmas, convenient for arithmetic. -/

theorem parse_literal_fields {c : Char} {st : Store} {nfa : NFA} {st' : Store}
    (h : parse_literal_token c st = .ok (nfa, st')) :
    st.next + 1 ≤ 65 + 26 ∧ nfa.initial = st.next ∧ nfa.accepting = {st.next + 1}
      ∧ st'.next = st.next + 2
      ∧ st'.edges = insert (st.next, c, st.next + 1) st.edges := by
  obtain ⟨hb, h1, h2⟩ := parse_literal_ok h
  exact ⟨hb, by rw [h1], by rw [h1], by rw [h2], by rw [h2]⟩

theorem unionStep_fields {left right : NFA} {st : Store} {nfa : NFA} {st' : Store}
    (h : unionStep left right st = .ok (nfa, st')) :
    st.next ≤ 65 + 26 ∧ nfa.initial = st.next
      ∧ nfa.accepting = left.accepting ∪ right.accepting
      ∧ st'.next = st.next + 1
      ∧ st'.edges = insert (st.next, EPSILON, right.initial)
          (insert (st.next, EPSILON, left.initial) st.edges) := by
  obtain ⟨hb, h1, h2⟩ := unionStep_ok h
  exact ⟨hb, by rw [h1], by rw [h1], by rw [h2], by rw [h2]⟩

theorem concatStep_fields {left right : NFA} {st : Store} {nfa : NFA} {st' : Store}
    (h : concatStep left right st = .ok (nfa, st')) :
    nfa.initial = left.initial ∧ nfa.accepting = right.accepting
      ∧ st'.next = st.next
      ∧ st'.edges = st.edges ∪ left.accepting.image (fun q => (q, EPSILON, right.initial)) := by
  obtain ⟨h1, h2, h3⟩ := concatStep_ok h
  exact ⟨by rw [h1], by rw [h1], h2, h3⟩

theorem kleeneStarStep_fields {root : NFA} {st : Store} {nfa : NFA} {st' : Store}
    (h : kleeneStarStep root st = .ok (nfa, st')) :
    st.next ≤ 65 + 26 ∧ nfa.initial = st.next
      ∧ nfa.accepting = insert st.next root.accepting
      ∧ st'.next = st.next + 1
      ∧ st'.edges = insert (st.next, EPSILON, root.initial) st.edges
          ∪ root.accepting.image (fun q => (q, EPSILON, root.initial)) := by
  obtain ⟨hb, h1, h2, h3⟩ := kleeneStarStep_ok h
  exact ⟨hb, by rw [h1], by rw [h1], h2, h3⟩

theorem intersect_fields {left right : NFA} {st : Store} {nfa : NFA} {st' : Store}
    (h : intersect left right st = .ok (nfa, st')) :
    nfa.initial = interPid st left right (left.initial, right.initial)
      ∧ nfa.accepting = interAccepting st left right
      ∧ st'.next = st.next + (interPairs st left right).length
      ∧ st'.edges = st.edges ∪ interEdges st left right
      ∧ ((interPairs st left right).length = 0 ∨ st'.next ≤ 65 + 26 + 1) := by
  obtain ⟨h1, h2, h3, h4⟩ := intersect_ok h
  exact ⟨by rw [h1], by rw [h1], h2, h3, h4⟩

/-- Master invariant of the builder: a successful build preserves
well-formedness, only moves the counter forward, only adds transitions,
places the automaton's initial and accepting states among the states it
allocated itself, and every transition it adds originates at one of its
own states (states older than the call keep their transition tables,
except for the epsilon additions concat/star make to states the same call
allocated). -/
theorem parse_inv {t : RegexToken} : ∀ {st st' : Store} {nfa : NFA},
    parse_regex_token t st = .ok (nfa, st') → WF st →
    WF st' ∧ st.next ≤ st'.next ∧ st.edges ⊆ st'.edges
      ∧ st.next ≤ nfa.initial ∧ nfa.initial < st'.next
      ∧ (∀ q ∈ nfa.accepting, st.next ≤ q ∧ q < st'.next)
      ∧ (∀ e ∈ st'.edges, e ∉ st.edges → st.next ≤ e.1) := by
  induction t with
  | literal c =>
    intro st st' nfa h hwf
    obtain ⟨hb, hni, hna, hsn, hse⟩ := parse_literal_fields h
    refine ⟨?_, by omega, ?_, by omega, by omega, ?_, ?_⟩
    · intro e he
      rw [hse] at he
      rcases Finset.mem_insert.mp he with rfl | he'
      · exact ⟨show st.next < st'.next by omega, show st.next + 1 < st'.next by omega⟩
      · obtain ⟨u1, u2⟩ := hwf e he'
        exact ⟨by omega, by omega⟩
    · rw [hse]
      exact Finset.subset_insert _ _
    · intro q hq
      rw [hna, Finset.mem_singleton] at hq
      omega
    · intro e he hne
      rw [hse] at he
      rcases Finset.mem_insert.mp he with rfl | he'
      · exact show st.next ≤ st.next from Nat.le_refl _
      · exact absurd he' hne
  | union l r ihl ihr =>
    intro st st' nfa h hwf
    obtain ⟨left, st1, right, st2, h1, h2, h3⟩ := parse_union_ok h
    obtain ⟨hw1, hn1, he1, hi1, hi1', ha1, hf1⟩ := ihl h1 hwf
    obtain ⟨hw2, hn2, he2, hi2, hi2', ha2, hf2⟩ := ihr h2 hw1
    obtain ⟨hb, hni, hna, hsn, hse⟩ := unionStep_fields h3
    refine ⟨?_, by omega, ?_, by omega, by omega, ?_, ?_⟩
    · intro e he
      rw [hse] at he
      rcases Finset.mem_insert.mp he with rfl | he'
      · exact ⟨show st2.next < st'.next by omega, show right.initial < st'.next by omega⟩
      · rcases Finset.mem_insert.mp he' with rfl | he''
        · exact ⟨show st2.next < st'.next by omega, show left.initial < st'.next by omega⟩
        · obtain ⟨u1, u2⟩ := hw2 e he''
          exact ⟨by omega, by omega⟩
    · rw [hse]
      exact fun e he =>
        Finset.mem_insert_of_mem (Finset.mem_insert_of_mem (he2 (he1 he)))
    · intro q hq
      rw [hna] at hq
      rcases Finset.mem_union.mp hq with hq' | hq'
      · obtain ⟨u1, u2⟩ := ha1 q hq'
        exact ⟨by omega, by omega⟩
      · obtain ⟨u1, u2⟩ := ha2 q hq'
        exact ⟨by omega, by omega⟩
    · intro e he hne
      rw [hse] at he
      rcases Finset.mem_insert.mp he with rfl | he'
      · exact show st.next ≤ st2.next by omega
      · rcases Finset.mem_insert.mp he' with rfl | he''
        · exact show st.next ≤ st2.next by omega
        · by_cases hmem : e ∈ st1.edges
          · exact hf1 e hmem (fun hc => hne hc)
          · have := hf2 e he'' hmem
            omega
  | intersection l r ihl ihr =>
    intro st st' nfa h hwf
    obtain ⟨left, st1, right, st2, h1, h2, h3⟩ := parse_intersection_ok h
    obtain ⟨hw1, hn1, he1, hi1, hi1', ha1, hf1⟩ := ihl h1 hwf
    obtain ⟨hw2, hn2, he2, hi2, hi2', ha2, hf2⟩ := ihr h2 hw1
    obtain ⟨hni, hna, hnext, hedges, _⟩ := intersect_fields h3
    have hinit : (left.initial, right.initial) ∈ interPairs st2 left right :=
      mem_interPairs.mpr ⟨mem_collect_self st2 left.initial, mem_collect_self st2 right.initial⟩
    have hinitlt := interPid_lt hinit
    have hinitge := interPid_ge st2 left right (left.initial, right.initial)
    refine ⟨?_, by omega, ?_, by omega, by omega, ?_, ?_⟩
    · intro e he
      rw [hedges] at he
      rcases Finset.mem_union.mp he with he' | he'
      · obtain ⟨u1, u2⟩ := hw2 e he'
        exact ⟨by omega, by omega⟩
      · obtain ⟨u1, u2, u3, u4⟩ := mem_interEdges_bound he'
        exact ⟨by omega, by omega⟩
    · rw [hedges]
      exact fun e he => Finset.mem_union_left _ (he2 (he1 he))
    · intro q hq
      rw [hna] at hq
      obtain ⟨p, hp, _, _, rfl⟩ := mem_interAccepting.mp hq
      have hge := interPid_ge st2 left right p
      have hlt := interPid_lt hp
      exact ⟨by omega, by omega⟩
    · intro e he hne
      rw [hedges] at he
      rcases Finset.mem_union.mp he with he' | he'
      · by_cases hmem : e ∈ st1.edges
        · exact hf1 e hmem (fun hc => hne hc)
        · have := hf2 e he' hmem
          omega
      · obtain ⟨u1, _, _, _⟩ := mem_interEdges_bound he'
        omega
  | concat l r ihl ihr =>
    intro st st' nfa h hwf
    obtain ⟨left, st1, right, st2, h1, h2, h3⟩ := parse_concat_ok h
    obtain ⟨hw1, hn1, he1, hi1, hi1', ha1, hf1⟩ := ihl h1 hwf
    obtain ⟨hw2, hn2, he2, hi2, hi2', ha2, hf2⟩ := ihr h2 hw1
    obtain ⟨hni, hna, hnext, hedges⟩ := concatStep_fields h3
    refine ⟨?_, by omega, ?_, by omega, by omega, ?_, ?_⟩
    · intro e he
      rw [hedges] at he
      rcases Finset.mem_union.mp he with he' | he'
      · obtain ⟨u1, u2⟩ := hw2 e he'
        exact ⟨by omega, by omega⟩
      · obtain ⟨q, hq, rfl⟩ := Finset.mem_image.mp he'
        obtain ⟨u1, u2⟩ := ha1 q hq
        exact ⟨show q < st'.next by omega, show right.initial < st'.next by omega⟩
    · rw [hedges]
      exact fun e he => Finset.mem_union_left _ (he2 (he1 he))
    · intro q hq
      rw [hna] at hq
      obtain ⟨u1, u2⟩ := ha2 q hq
      exact ⟨by omega, by omega⟩
    · intro e he hne
      rw [hedges] at he
      rcases Finset.mem_union.mp he with he' | he'
      · by_cases hmem : e ∈ st1.edges
        · exact hf1 e hmem (fun hc => hne hc)
        · have := hf2 e he' hmem
          omega
      · obtain ⟨q, hq, rfl⟩ := Finset.mem_image.mp he'
        obtain ⟨u1, u2⟩ := ha1 q hq
        exact show st.next ≤ q from u1
  | kleeneStar tt iht =>
    intro st st' nfa h hwf
    obtain ⟨root, st1, h1, h2⟩ := parse_kleene_ok h
    obtain ⟨hw1, hn1, he1, hi1, hi1', ha1, hf1⟩ := iht h1 hwf
    obtain ⟨hb, hni, hna, hnext, hedges⟩ := kleeneStarStep_fields h2
    refine ⟨?_, by omega, ?_, by omega, by omega, ?_, ?_⟩
    · intro e he
      rw [hedges] at he
      rcases Finset.mem_union.mp he with he' | he'
      · rcases Finset.mem_insert.mp he' with rfl | he''
        · exact ⟨show st1.next < st'.next by omega, show root.initial < st'.next by omega⟩
        · obtain ⟨u1, u2⟩ := hw1 e he''
          exact ⟨by omega, by omega⟩
      · obtain ⟨q, hq, rfl⟩ := Finset.mem_image.mp he'
        obtain ⟨u1, u2⟩ := ha1 q hq
        exact ⟨show q < st'.next by omega, show root.initial < st'.next by omega⟩
    · rw [hedges]
      exact fun e he =>
        Finset.mem_union_left _ (Finset.mem_insert_of_mem (he1 he))
    · intro q hq
      rw [hna] at hq
      rcases Finset.mem_insert.mp hq with rfl | hq'
      · exact ⟨by omega, by omega⟩
      · obtain ⟨u1, u2⟩ := ha1 q hq'
        exact ⟨by omega, by omega⟩
    · intro e he hne
      rw [hedges] at he
      rcases Finset.mem_union.mp he with he' | he'
      · rcases Finset.mem_insert.mp he' with rfl | he''
        · exact show st.next ≤ st1.next by omega
        · by_cases hmem : e ∈ st.edges
          · exact absurd hmem hne
          · exact hf1 e he'' hmem
      · obtain ⟨q, hq, rfl⟩ := Finset.mem_image.mp he'
        obtain ⟨u1, u2⟩ := ha1 q hq
        exact show st.next ≤ q from u1
  | other d =>
    intro st st' nfa h hwf
    cases h

/-- Token predicate: no node of the tree is a foreign (unrecognized)
object, i.e. every discriminant is one of the five known variants. -/
def recognized : RegexToken → Bool
  | .literal _ => true
  | .union l r => recognized l && recognized r
  | .intersection l r => recognized l && recognized r
  | .concat l r => recognized l && recognized r
  | .kleeneStar t => recognized t
  | .other _ => false

/-- Token predicate: the tree contains no intersection node. -/
def intersectionFree : RegexToken → Bool
  | .literal _ => true
  | .union l r => intersectionFree l && intersectionFree r
  | .intersection _ _ => false
  | .concat l r => intersectionFree l && intersectionFree r
  | .kleeneStar t => intersectionFree t
  | .other _ => true

/-! ## Claim C7 -/

/-- C7: for every automaton, the set returned by
`collect_reachable_states` contains the starting (initial) state and is
closed under following any outgoing transition of any of its members,
regardless of the transition's label (epsilon included). -/
theorem collect_reachable_contains_closed (st : Store) (s₀ : Nat) :
    s₀ ∈ collect_reachable_states st s₀
      ∧ ∀ s a t, s ∈ collect_reachable_states st s₀ → (s, a, t) ∈ st.edges →
          t ∈ collect_reachable_states st s₀ :=
  ⟨mem_collect_self st s₀,
   fun s a _t hs he => collect_closed st s₀ s hs (mem_succOf.mpr ⟨a, he⟩)⟩

/-- Witness for C7 on a concrete two-state automaton. -/
theorem collect_reachable_contains_closed_witness :
    (0 : Nat) ∈ collect_reachable_states ⟨2, {(0, 'a', 1)}⟩ 0
      ∧ (1 : Nat) ∈ collect_reachable_states ⟨2, {(0, 'a', 1)}⟩ 0 :=
  ⟨(collect_reachable_contains_closed ⟨2, {(0, 'a', 1)}⟩ 0).1,
   (collect_reachable_contains_closed ⟨2, {(0, 'a', 1)}⟩ 0).2 0 'a' 1
     (by decide) (by decide)⟩

/-! ## Claim C9 -/

/-- C9: building a literal yields exactly two states — a fresh initial and
a fresh sole accepting state — whose reachable set is exactly those two
states, with exactly one transition, labeled with the literal's symbol,
from the initial to the accepting state (and no other transition of the
store touches the two new states). -/
theorem literal_structure {c : Char} {st st' : Store} {nfa : NFA}
    (hwf : WF st) (h : parse_regex_token (.literal c) st = .ok (nfa, st')) :
    nfa.initial = st.next ∧ nfa.accepting = {st.next + 1}
      ∧ st'.next = st.next + 2
      ∧ st'.edges = insert (st.next, c, st.next + 1) st.edges
      ∧ (st.next, c, st.next + 1) ∉ st.edges
      ∧ collect_reachable_states st' nfa.initial = {st.next, st.next + 1}
      ∧ (∀ e ∈ st'.edges, (e.1 = st.next ∨ e.1 = st.next + 1) →
          e = (st.next, c, st.next + 1)) := by
  obtain ⟨hb, hni, hna, hsn, hse⟩ := parse_literal_fields h
  have hnew : (st.next, c, st.next + 1) ∉ st.edges := fun hc => by
    have := (hwf _ hc).1
    simp at this
  have honly : ∀ e ∈ st'.edges, (e.1 = st.next ∨ e.1 = st.next + 1) →
      e = (st.next, c, st.next + 1) := by
    intro e he hsrc
    rw [hse] at he
    rcases Finset.mem_insert.mp he with rfl | he'
    · rfl
    · have := (hwf e he').1
      omega
  refine ⟨hni, hna, hsn, hse, hnew, ?_, honly⟩
  apply Finset.Subset.antisymm
  · refine collect_subset st' nfa.initial _ ?_ ?_
    · intro x hx t ht
      obtain ⟨a, hat⟩ := mem_succOf.mp ht
      have := honly (x, a, t) hat (by
        rcases Finset.mem_insert.mp hx with rfl | hx'
        · exact Or.inl rfl
        · rw [Finset.mem_singleton] at hx'
          exact Or.inr hx')
      obtain ⟨-, -, rfl⟩ := Prod.mk.injEq .. ▸ this
      simp
    · rw [hni]
      exact Finset.mem_insert_self _ _
  · intro x hx
    rcases Finset.mem_insert.mp hx with rfl | hx'
    · rw [← hni]
      exact mem_collect_self st' nfa.initial
    · rw [Finset.mem_singleton] at hx'
      subst hx'
      refine collect_closed st' nfa.initial nfa.initial
        (mem_collect_self st' nfa.initial) (mem_succOf.mpr ⟨c, ?_⟩)
      rw [hse, hni]
      exact Finset.mem_insert_self _ _

/-- Witness for C9: the literal `a` built on a fresh store. -/
theorem literal_structure_witness :
    WF freshStore
      ∧ parse_regex_token (.literal 'a') freshStore
          = .ok (⟨65, {66}⟩, ⟨67, {(65, 'a', 66)}⟩)
      ∧ (NFA.mk 65 {66}).initial = freshStore.next
      ∧ collect_reachable_states ⟨67, {(65, 'a', 66)}⟩ (NFA.mk 65 {66}).initial
          = {freshStore.next, freshStore.next + 1} := by
  refine ⟨by decide, by decide, ?_, ?_⟩
  · exact (@literal_structure 'a' freshStore ⟨67, {(65, 'a', 66)}⟩ ⟨65, {66}⟩
      (by decide) (by decide)).1
  · exact (@literal_structure 'a' freshStore ⟨67, {(65, 'a', 66)}⟩ ⟨65, {66}⟩
      (by decide) (by decide)).2.2.2.2.2.1

/-! ## Claim C5 -/

/-- C5: building `KleeneStar(T)` allocates exactly one new state, which is
both the result's initial state and a member of its accepting set; it adds
an epsilon transition from that new state to `T`'s initial and an epsilon
transition from every `T`-accepting state back to `T`'s initial, and the
accepting set of the result is the new state together with `T`'s accepting
set (and those are the only additions). -/
theorem kleene_star_structure {t : RegexToken} {st st' : Store} {nfa : NFA}
    (h : parse_regex_token (.kleeneStar t) st = .ok (nfa, st')) :
    ∃ root st1, parse_regex_token t st = .ok (root, st1)
      ∧ nfa.initial = st1.next
      ∧ st'.next = st1.next + 1
      ∧ nfa.initial ∈ nfa.accepting
      ∧ nfa.accepting = insert nfa.initial root.accepting
      ∧ (nfa.initial, EPSILON, root.initial) ∈ st'.edges
      ∧ (∀ q ∈ root.accepting, (q, EPSILON, root.initial) ∈ st'.edges)
      ∧ st'.edges = insert (nfa.initial, EPSILON, root.initial) st1.edges
          ∪ root.accepting.image (fun q => (q, EPSILON, root.initial)) := by
  obtain ⟨root, st1, h1, h2⟩ := parse_kleene_ok h
  obtain ⟨hb, hni, hna, hnext, hedges⟩ := kleeneStarStep_fields h2
  refine ⟨root, st1, h1, hni, by omega, ?_, by rw [hna, hni], ?_, ?_, by rw [hedges, hni]⟩
  · rw [hna, hni]
    exact Finset.mem_insert_self _ _
  · rw [hedges, hni]
    exact Finset.mem_union_left _ (Finset.mem_insert_self _ _)
  · intro q hq
    rw [hedges]
    exact Finset.mem_union_right _ (Finset.mem_image.mpr ⟨q, hq, rfl⟩)

/-- Witness for C5: the kleene star of the literal `a` on a fresh store. -/
theorem kleene_star_structure_witness :
    parse_regex_token (.kleeneStar (.literal 'a')) freshStore
        = .ok (⟨67, {67, 66}⟩, ⟨68, {(65, 'a', 66), (67, 'ε', 65), (66, 'ε', 65)}⟩)
      ∧ (NFA.mk 67 {67, 66}).initial ∈ (NFA.mk 67 {67, 66}).accepting := by
  refine ⟨by decide, ?_⟩
  obtain ⟨root, st1, -, -, -, hmem, -⟩ :=
    @kleene_star_structure (.literal 'a') freshStore
      ⟨68, {(65, 'a', 66), (67, 'ε', 65), (66, 'ε', 65)}⟩ ⟨67, {67, 66}⟩ (by decide)
  exact hmem

/-! ## Claim C6 -/

/-- C6: building `Concat(L,R)` creates no new states, reuses `L`'s initial
state as the result's initial and `R`'s accepting set as the result's
accepting set, and the only change to the transition tables is the
addition of exactly one fresh epsilon transition per `L`-accepting state,
each targeting `R`'s initial state; every transition that existed in
either sub-automaton is still present, unaltered. -/
theorem concat_frame {l r : RegexToken} {st st' : Store} {nfa : NFA}
    (hwf : WF st) (h : parse_regex_token (.concat l r) st = .ok (nfa, st')) :
    ∃ left st1 right st2, parse_regex_token l st = .ok (left, st1)
      ∧ parse_regex_token r st1 = .ok (right, st2)
      ∧ st'.next = st2.next
      ∧ nfa.initial = left.initial
      ∧ nfa.accepting = right.accepting
      ∧ st'.edges = st2.edges ∪ left.accepting.image (fun q => (q, EPSILON, right.initial))
      ∧ (∀ q ∈ left.accepting, (q, EPSILON, right.initial) ∉ st2.edges)
      ∧ st2.edges ⊆ st'.edges := by
  obtain ⟨left, st1, right, st2, h1, h2, h3⟩ := parse_concat_ok h
  obtain ⟨hw1, hn1, he1, hi1, hi1', ha1, hf1⟩ := parse_inv h1 hwf
  obtain ⟨hw2, hn2, he2, hi2, hi2', ha2, hf2⟩ := parse_inv h2 hw1
  obtain ⟨hni, hna, hnext, hedges⟩ := concatStep_fields h3
  refine ⟨left, st1, right, st2, h1, h2, hnext, hni, hna, hedges, ?_, ?_⟩
  · intro q hq hc
    obtain ⟨u1, u2⟩ := ha1 q hq
    by_cases hmem : (q, EPSILON, right.initial) ∈ st1.edges
    · have := (hw1 _ hmem).2
      show False
      have : right.initial < st1.next := this
      omega
    · have := hf2 _ hc hmem
      show False
      have h2' : st1.next ≤ q := this
      omega
  · rw [hedges]
    exact Finset.subset_union_left

/-- Witness for C6: the concatenation `a.b` on a fresh store. -/
theorem concat_frame_witness :
    WF freshStore
      ∧ parse_regex_token (.concat (.literal 'a') (.literal 'b')) freshStore
          = .ok (⟨65, {68}⟩, ⟨69, {(65, 'a', 66), (67, 'b', 68), (66, 'ε', 67)}⟩)
      ∧ (NFA.mk 65 {68}).initial = 65 ∧ (NFA.mk 65 {68}).accepting = {68} := by
  refine ⟨by decide, by decide, ?_⟩
  obtain ⟨left, st1, right, st2, hpl, hpr, -, hni, hna, -⟩ :=
    @concat_frame (.literal 'a') (.literal 'b') freshStore
      ⟨69, {(65, 'a', 66), (67, 'b', 68), (66, 'ε', 67)}⟩ ⟨65, {68}⟩ (by decide) (by decide)
  obtain ⟨-, hl1, -⟩ := parse_literal_fields hpl
  obtain ⟨-, -, hr2, -, -⟩ := parse_literal_fields hpr
  have hst1 : st1.next = 67 := by
    obtain ⟨-, -, -, hx, -⟩ := parse_literal_fields hpl
    simpa using hx
  constructor
  · rw [hni, hl1]
    rfl
  · rw [hna, hr2, hst1]

/-! ## Claim C3 -/

/-- C3, counterexample: the claim "state-identity allocation never fails"
is false on the code.  `State.__init__` enforces a bounded 26-letter
naming scheme (`current_label > 65 + 26` raises), so a union of ten
literals — which needs 29 states — raises the identity-exhaustion error
even from a fresh session. -/
theorem build_identity_exhaustion_example :
    parse_regex_token
      (.union (.literal 'a') (.union (.literal 'b') (.union (.literal 'c')
        (.union (.literal 'd') (.union (.literal 'e') (.union (.literal 'f')
        (.union (.literal 'g') (.union (.literal 'h') (.union (.literal 'i')
        (.literal 'j')))))))))) freshStore
      = .error .identityExhaustion := by
  decide

/-- C3, amended: state identities come from a bounded scheme, not an
unbounded one.  Every successful build keeps the label counter within the
27-label ceiling (`65 + 26 + 1`): starting at or below the ceiling, a
build that does not raise the identity-exhaustion error ends at or below
it, because every single allocation is guarded. -/
theorem build_counter_bounded {t : RegexToken} :
    ∀ {st st' : Store} {nfa : NFA},
      parse_regex_token t st = .ok (nfa, st') →
      st.next ≤ 65 + 26 + 1 → st'.next ≤ 65 + 26 + 1 := by
  induction t with
  | literal c =>
    intro st st' nfa h hb
    obtain ⟨hg, -, -, hn, -⟩ := parse_literal_fields h
    omega
  | union l r ihl ihr =>
    intro st st' nfa h hb
    obtain ⟨left, st1, right, st2, h1, h2, h3⟩ := parse_union_ok h
    obtain ⟨hg, -, -, hn, -⟩ := unionStep_fields h3
    omega
  | intersection l r ihl ihr =>
    intro st st' nfa h hb
    obtain ⟨left, st1, right, st2, h1, h2, h3⟩ := parse_intersection_ok h
    obtain ⟨-, -, hn, -, hd⟩ := intersect_fields h3
    rcases hd with hd | hd
    · have := ihr h2 (ihl h1 hb)
      omega
    · exact hd
  | concat l r ihl ihr =>
    intro st st' nfa h hb
    obtain ⟨left, st1, right, st2, h1, h2, h3⟩ := parse_concat_ok h
    obtain ⟨-, -, hn, -⟩ := concatStep_fields h3
    have := ihr h2 (ihl h1 hb)
    omega
  | kleeneStar tt iht =>
    intro st st' nfa h hb
    obtain ⟨root, st1, h1, h2⟩ := parse_kleene_ok h
    obtain ⟨hg, -, -, hn, -⟩ := kleeneStarStep_fields h2
    omega
  | other d =>
    intro st st' nfa h hb
    cases h

/-- Witness for the amended C3: a successful literal build from a fresh
session stays within the bounded labeling ceiling. -/
theorem build_counter_bounded_witness :
    parse_regex_token (.literal 'a') freshStore
        = .ok (⟨65, {66}⟩, ⟨67, {(65, 'a', 66)}⟩)
      ∧ freshStore.next ≤ 65 + 26 + 1
      ∧ (Store.mk 67 {(65, 'a', 66)}).next ≤ 65 + 26 + 1 :=
  ⟨by decide, by decide,
   @build_counter_bounded (.literal 'a') freshStore ⟨67, {(65, 'a', 66)}⟩ ⟨65, {66}⟩
     (by decide) (by decide)⟩

/-! ## Claim C8 -/

theorem newState_error {st : Store} {e : BuildError}
    (h : newState st = .error e) : e = .identityExhaustion := by
  rw [newState] at h
  by_cases hgt : st.next > 65 + 26
  · rw [if_pos hgt] at h
    exact (Except.error.inj h).symm
  · rw [if_neg hgt] at h
    cases h

theorem parse_literal_error {c : Char} {st : Store} {e : BuildError}
    (h : parse_literal_token c st = .error e) : e = .identityExhaustion := by
  rw [parse_literal_token] at h
  split at h
  · rename_i e' h1
    cases h
    exact newState_error h1
  · split at h
    · rename_i e' h1
      cases h
      exact newState_error h1
    · cases h

theorem unionStep_error {left right : NFA} {st : Store} {e : BuildError}
    (h : unionStep left right st = .error e) : e = .identityExhaustion := by
  rw [unionStep] at h
  split at h
  · rename_i e' h1
    cases h
    exact newState_error h1
  · cases h

theorem kleeneStarStep_error {root : NFA} {st : Store} {e : BuildError}
    (h : kleeneStarStep root st = .error e) : e = .identityExhaustion := by
  rw [kleeneStarStep] at h
  split at h
  · rename_i e' h1
    cases h
    exact newState_error h1
  · cases h

theorem intersect_error {left right : NFA} {st : Store} {e : BuildError}
    (h : intersect left right st = .error e) : e = .identityExhaustion := by
  rw [intersect] at h
  split at h
  · rename_i e' h1
    cases h
    exact allocStates_error h1
  · cases h

/-- C8: a syntax-tree node the builder does not recognize is rejected
immediately with the fatal construction error carrying that node's
description, and no automaton is produced; a tree all of whose nodes are
among the five recognized variants never raises that error (any failure it
can raise is the separate identity-exhaustion error). -/
theorem unrecognized_token_error :
    (∀ (d : String) (st : Store),
        parse_regex_token (.other d) st = .error (.unrecognized d))
      ∧ ∀ (t : RegexToken), recognized t = true →
          ∀ (st : Store) (e : BuildError), parse_regex_token t st = .error e →
            e = .identityExhaustion := by
  refine ⟨fun d st => rfl, fun t => ?_⟩
  induction t with
  | literal c =>
    intro _ st e h
    exact parse_literal_error h
  | union l r ihl ihr =>
    intro hrec st e h
    rw [recognized, Bool.and_eq_true] at hrec
    rw [parse_regex_token] at h
    split at h
    · rename_i e' h1
      cases h
      exact ihl hrec.1 _ _ h1
    · split at h
      · rename_i e' h1
        cases h
        exact ihr hrec.2 _ _ h1
      · exact unionStep_error h
  | intersection l r ihl ihr =>
    intro hrec st e h
    rw [recognized, Bool.and_eq_true] at hrec
    rw [parse_regex_token] at h
    split at h
    · rename_i e' h1
      cases h
      exact ihl hrec.1 _ _ h1
    · split at h
      · rename_i e' h1
        cases h
        exact ihr hrec.2 _ _ h1
      · exact intersect_error h
  | concat l r ihl ihr =>
    intro hrec st e h
    rw [recognized, Bool.and_eq_true] at hrec
    rw [parse_regex_token] at h
    split at h
    · rename_i e' h1
      cases h
      exact ihl hrec.1 _ _ h1
    · split at h
      · rename_i e' h1
        cases h
        exact ihr hrec.2 _ _ h1
      · cases h
  | kleeneStar tt iht =>
    intro hrec st e h
    rw [recognized] at hrec
    rw [parse_regex_token] at h
    split at h
    · rename_i e' h1
      cases h
      exact iht hrec _ _ h1
    · exact kleeneStarStep_error h
  | other d =>
    intro hrec
    cases hrec

/-- Witness for C8: a foreign token is rejected with the construction
error, and a recognized tree that fails does so only by exhaustion. -/
theorem unrecognized_token_error_witness :
    parse_regex_token (.other "FancyToken") freshStore
        = .error (.unrecognized "FancyToken")
      ∧ recognized (.literal 'a') = true
      ∧ (BuildError.identityExhaustion = BuildError.identityExhaustion) := by
  refine ⟨unrecognized_token_error.1 "FancyToken" freshStore, by decide, ?_⟩
  have hbig : parse_regex_token
      (.union (.literal 'a') (.union (.literal 'b') (.union (.literal 'c')
        (.union (.literal 'd') (.union (.literal 'e') (.union (.literal 'f')
        (.union (.literal 'g') (.union (.literal 'h') (.union (.literal 'i')
        (.literal 'j')))))))))) freshStore
      = .error .identityExhaustion := by decide
  exact unrecognized_token_error.2 _ (by decide) freshStore _ hbig

/-! ## Claim C2 -/

/-- For intersection-free trees the accepting set is nonempty and every
accepting state is graph-reachable from the automaton's initial state. -/
theorem parse_accepting_reach {t : RegexToken} :
    ∀ {st st' : Store} {nfa : NFA},
      intersectionFree t = true → parse_regex_token t st = .ok (nfa, st') → WF st →
      nfa.accepting.Nonempty
        ∧ ∀ q ∈ nfa.accepting, Reach st'.edges nfa.initial q := by
  induction t with
  | literal c =>
    intro st st' nfa _ h _
    obtain ⟨-, hni, hna, -, hse⟩ := parse_literal_fields h
    refine ⟨by rw [hna]; exact ⟨st.next + 1, Finset.mem_singleton_self _⟩, ?_⟩
    intro q hq
    rw [hna, Finset.mem_singleton] at hq
    subst hq
    refine Reach.step Reach.refl (mem_succOf.mpr ⟨c, ?_⟩)
    rw [hse, hni]
    exact Finset.mem_insert_self _ _
  | union l r ihl ihr =>
    intro st st' nfa hfree h hwf
    rw [intersectionFree, Bool.and_eq_true] at hfree
    obtain ⟨left, st1, right, st2, h1, h2, h3⟩ := parse_union_ok h
    obtain ⟨hw1, hn1, he1, hi1, hi1', ha1, hf1⟩ := parse_inv h1 hwf
    obtain ⟨hw2, hn2, he2, hi2, hi2', ha2, hf2⟩ := parse_inv h2 hw1
    obtain ⟨hne1, hr1⟩ := ihl hfree.1 h1 hwf
    obtain ⟨hne2, hr2⟩ := ihr hfree.2 h2 hw1
    obtain ⟨-, hni, hna, -, hse⟩ := unionStep_fields h3
    have hsubL : st1.edges ⊆ st'.edges := by
      rw [hse]
      exact fun e he =>
        Finset.mem_insert_of_mem (Finset.mem_insert_of_mem (he2 he))
    have hsubR : st2.edges ⊆ st'.edges := by
      rw [hse]
      exact fun e he =>
        Finset.mem_insert_of_mem (Finset.mem_insert_of_mem he)
    refine ⟨?_, ?_⟩
    · obtain ⟨q, hq⟩ := hne1
      exact ⟨q, by rw [hna]; exact Finset.mem_union_left _ hq⟩
    · intro q hq
      rw [hna] at hq
      rcases Finset.mem_union.mp hq with hq' | hq'
      · have hstep : Reach st'.edges nfa.initial left.initial := by
          refine Reach.step Reach.refl (mem_succOf.mpr ⟨EPSILON, ?_⟩)
          rw [hse, hni]
          exact Finset.mem_insert_of_mem (Finset.mem_insert_self _ _)
        exact Reach.trans hstep (reach_mono hsubL (hr1 q hq'))
      · have hstep : Reach st'.edges nfa.initial right.initial := by
          refine Reach.step Reach.refl (mem_succOf.mpr ⟨EPSILON, ?_⟩)
          rw [hse, hni]
          exact Finset.mem_insert_self _ _
        exact Reach.trans hstep (reach_mono hsubR (hr2 q hq'))
  | intersection l r ihl ihr =>
    intro st st' nfa hfree
    rw [intersectionFree] at hfree
    cases hfree
  | concat l r ihl ihr =>
    intro st st' nfa hfree h hwf
    rw [intersectionFree, Bool.and_eq_true] at hfree
    obtain ⟨left, st1, right, st2, h1, h2, h3⟩ := parse_concat_ok h
    obtain ⟨hw1, hn1, he1, hi1, hi1', ha1, hf1⟩ := parse_inv h1 hwf
    obtain ⟨hne1, hr1⟩ := ihl hfree.1 h1 hwf
    obtain ⟨hne2, hr2⟩ := ihr hfree.2 h2 hw1
    obtain ⟨hni, hna, -, hse⟩ := concatStep_fields h3
    have hsubL : st1.edges ⊆ st'.edges := by
      rw [hse]
      exact fun e he => Finset.mem_union_left _ ((parse_inv h2 hw1).2.2.1 he)
    have hsubR : st2.edges ⊆ st'.edges := by
      rw [hse]
      exact Finset.subset_union_left
    obtain ⟨la, hla⟩ := hne1
    have hbridge : Reach st'.edges nfa.initial right.initial := by
      have hreachla : Reach st'.edges nfa.initial la := by
        rw [hni]
        exact reach_mono hsubL (hr1 la hla)
      refine Reach.step hreachla (mem_succOf.mpr ⟨EPSILON, ?_⟩)
      rw [hse]
      exact Finset.mem_union_right _ (Finset.mem_image.mpr ⟨la, hla, rfl⟩)
    refine ⟨?_, ?_⟩
    · obtain ⟨q, hq⟩ := hne2
      exact ⟨q, by rw [hna]; exact hq⟩
    · intro q hq
      rw [hna] at hq
      exact Reach.trans hbridge (reach_mono hsubR (hr2 q hq))
  | kleeneStar tt iht =>
    intro st st' nfa hfree h hwf
    rw [intersectionFree] at hfree
    obtain ⟨root, st1, h1, h2⟩ := parse_kleene_ok h
    obtain ⟨hw1, hn1, he1, hi1, hi1', ha1, hf1⟩ := parse_inv h1 hwf
    obtain ⟨hne1, hr1⟩ := iht hfree h1 hwf
    obtain ⟨-, hni, hna, -, hse⟩ := kleeneStarStep_fields h2
    have hsub : st1.edges ⊆ st'.edges := by
      rw [hse]
      exact fun e he => Finset.mem_union_left _ (Finset.mem_insert_of_mem he)
    refine ⟨⟨st1.next, by rw [hna]; exact Finset.mem_insert_self _ _⟩, ?_⟩
    intro q hq
    rw [hna] at hq
    rcases Finset.mem_insert.mp hq with rfl | hq'
    · rw [hni]
      exact Reach.refl
    · have hstep : Reach st'.edges nfa.initial root.initial := by
        refine Reach.step Reach.refl (mem_succOf.mpr ⟨EPSILON, ?_⟩)
        rw [hse, hni]
        exact Finset.mem_union_left _ (Finset.mem_insert_self _ _)
      exact Reach.trans hstep (reach_mono hsub (hr1 q hq'))
  | other d =>
    intro st st' nfa _ h _
    cases h

/-- C2, counterexample: for the intersection construction the claim
fails.  Building `a ∩ b` (disjoint one-symbol languages) produces an
automaton whose accepting set contains the product state 72 of the pair of
the two accepting states, yet no product transition exists at all, so the
set of states reachable from the product initial state 69 is `{69}` — the
accepting set is not a subset of the reachable set. -/
theorem accepting_not_reachable_example :
    parse_regex_token (.intersection (.literal 'a') (.literal 'b')) freshStore
        = .ok (⟨69, {72}⟩, ⟨73, {(65, 'a', 66), (67, 'b', 68)}⟩)
      ∧ (72 : Nat) ∈ (NFA.mk 69 {72}).accepting
      ∧ (72 : Nat) ∉ collect_reachable_states ⟨73, {(65, 'a', 66), (67, 'b', 68)}⟩
          (NFA.mk 69 {72}).initial :=
  ⟨by decide, by decide, by decide⟩

/-- C2, amended: for every automaton produced by the literal, union,
concatenation and kleene-star constructions — that is, by any
intersection-free tree — the accepting set is a subset of the states
reachable from the initial state; the intersection construction may place
unreachable product states in the accepting set. -/
theorem accepting_subset_reachable_of_intersectionFree {t : RegexToken}
    {st st' : Store} {nfa : NFA}
    (hfree : intersectionFree t = true) (hwf : WF st)
    (h : parse_regex_token t st = .ok (nfa, st')) :
    ∀ q ∈ nfa.accepting, q ∈ collect_reachable_states st' nfa.initial := by
  intro q hq
  exact reach_mem_collect ((parse_accepting_reach hfree h hwf).2 q hq)

/-- Witness for the amended C2: the literal `a`. -/
theorem accepting_subset_reachable_witness :
    intersectionFree (.literal 'a') = true
      ∧ WF freshStore
      ∧ parse_regex_token (.literal 'a') freshStore
          = .ok (⟨65, {66}⟩, ⟨67, {(65, 'a', 66)}⟩)
      ∧ ∀ q ∈ (NFA.mk 65 {66}).accepting,
          q ∈ collect_reachable_states ⟨67, {(65, 'a', 66)}⟩ (NFA.mk 65 {66}).initial :=
  ⟨by decide, by decide, by decide,
   @accepting_subset_reachable_of_intersectionFree (.literal 'a') freshStore
     ⟨67, {(65, 'a', 66)}⟩ ⟨65, {66}⟩ (by decide) (by decide) (by decide)⟩

/-! ## Claim C10 -/

/-- C10: the product construction never mutates its operand automata.
After a successful `intersect`, every pre-existing transition is still
present, every pre-existing state has exactly the outgoing transition
table it had before, and every transition the construction added has both
its source and its destination among the freshly allocated product
states. -/
theorem intersect_frame {left right : NFA} {st st' : Store} {pnfa : NFA}
    (h : intersect left right st = .ok (pnfa, st')) :
    st.edges ⊆ st'.edges
      ∧ (∀ s a, s < st.next → transOf st' s a = transOf st s a)
      ∧ (∀ e ∈ st'.edges, e ∉ st.edges →
          st.next ≤ e.1 ∧ e.1 < st'.next ∧ st.next ≤ e.2.2 ∧ e.2.2 < st'.next) := by
  obtain ⟨-, -, hnext, hedges, -⟩ := intersect_fields h
  refine ⟨?_, ?_, ?_⟩
  · rw [hedges]
    exact Finset.subset_union_left
  · intro s a hs
    apply Finset.ext
    intro x
    rw [mem_transOf, mem_transOf, hedges, Finset.mem_union]
    constructor
    · rintro (hx | hx)
      · exact hx
      · obtain ⟨u1, -⟩ := mem_interEdges_bound hx
        omega
    · exact Or.inl
  · intro e he hne
    rw [hedges] at he
    rcases Finset.mem_union.mp he with he' | he'
    · exact absurd he' hne
    · obtain ⟨u1, u2, u3, u4⟩ := mem_interEdges_bound he'
      exact ⟨u1, by omega, u3, by omega⟩

/-- Witness for C10: the product of the two literal automata for `a`,
built side by side in one store. -/
theorem intersect_frame_witness :
    intersect ⟨65, {66}⟩ ⟨67, {68}⟩ ⟨69, {(65, 'a', 66), (67, 'a', 68)}⟩
        = .ok (⟨69, {72}⟩, ⟨73, {(65, 'a', 66), (67, 'a', 68), (69, 'a', 72)}⟩)
      ∧ ∀ s a, s < (Store.mk 69 {(65, 'a', 66), (67, 'a', 68)}).next →
          transOf ⟨73, {(65, 'a', 66), (67, 'a', 68), (69, 'a', 72)}⟩ s a
            = transOf ⟨69, {(65, 'a', 66), (67, 'a', 68)}⟩ s a :=
  ⟨by decide,
   (@intersect_frame ⟨65, {66}⟩ ⟨67, {68}⟩ ⟨69, {(65, 'a', 66), (67, 'a', 68)}⟩
     ⟨73, {(65, 'a', 66), (67, 'a', 68), (69, 'a', 72)}⟩ ⟨69, {72}⟩
     (by decide)).2.1⟩

/-! ## Claim C1

The language of the product automaton.  Throughout this section `h` binds
a successful run of the product construction; runs of the product decode
to synchronized pairs of runs of the operands, and vice versa. -/

section InterLanguage

variable {left right : NFA} {st st' : Store} {pnfa : NFA}

theorem inter_sym_edge (h : intersect left right st = .ok (pnfa, st'))
    {lp rp nl nr : Nat} {a : Char}
    (hlp : lp ∈ collect_reachable_states st left.initial)
    (hrp : rp ∈ collect_reachable_states st right.initial)
    (ha : a ≠ EPSILON) (hnl : nl ∈ transOf st lp a) (hnr : nr ∈ transOf st rp a) :
    (interPid st left right (lp, rp), a, interPid st left right (nl, nr)) ∈ st'.edges := by
  obtain ⟨-, -, -, hedges, -⟩ := intersect_fields h
  rw [hedges]
  refine Finset.mem_union_right _ (Finset.mem_biUnion.mpr
    ⟨(lp, rp), Finset.mem_product.mpr ⟨hlp, hrp⟩, ?_⟩)
  exact mem_productPairEdges.mpr (Or.inl ⟨a, ha, nl, hnl, nr, hnr, rfl⟩)

theorem inter_eps_edge (h : intersect left right st = .ok (pnfa, st'))
    {lp rp nl nr : Nat}
    (hlp : lp ∈ collect_reachable_states st left.initial)
    (hrp : rp ∈ collect_reachable_states st right.initial)
    (hcond : transOf st lp EPSILON ≠ ∅ ∨ transOf st rp EPSILON ≠ ∅)
    (hnl : nl ∈ insert lp (transOf st lp EPSILON))
    (hnr : nr ∈ insert rp (transOf st rp EPSILON)) :
    (interPid st left right (lp, rp), EPSILON, interPid st left right (nl, nr)) ∈ st'.edges := by
  obtain ⟨-, -, -, hedges, -⟩ := intersect_fields h
  rw [hedges]
  refine Finset.mem_union_right _ (Finset.mem_biUnion.mpr
    ⟨(lp, rp), Finset.mem_product.mpr ⟨hlp, hrp⟩, ?_⟩)
  exact mem_productPairEdges.mpr (Or.inr ⟨hcond, nl, hnl, nr, hnr, rfl⟩)

theorem inter_edge_decode (hwf : WF st)
    (h : intersect left right st = .ok (pnfa, st')) {lp rp t : Nat} {a : Char}
    (hlp : lp ∈ collect_reachable_states st left.initial)
    (hrp : rp ∈ collect_reachable_states st right.initial)
    (he : (interPid st left right (lp, rp), a, t) ∈ st'.edges) :
    (a ≠ EPSILON ∧ ∃ nl ∈ transOf st lp a, ∃ nr ∈ transOf st rp a,
        t = interPid st left right (nl, nr))
      ∨ (a = EPSILON ∧ ∃ nl ∈ insert lp (transOf st lp EPSILON),
          ∃ nr ∈ insert rp (transOf st rp EPSILON),
            t = interPid st left right (nl, nr)) := by
  obtain ⟨-, -, -, hedges, -⟩ := intersect_fields h
  rw [hedges, Finset.mem_union] at he
  rcases he with he | he
  · have h1 : interPid st left right (lp, rp) < st.next := (hwf _ he).1
    exact absurd h1 (Nat.not_lt.mpr (interPid_ge st left right (lp, rp)))
  · obtain ⟨pr, hpr, hmem⟩ := Finset.mem_biUnion.mp he
    obtain ⟨hpr1, hpr2⟩ := Finset.mem_product.mp hpr
    have hprP : pr ∈ interPairs st left right := mem_interPairs.mpr ⟨hpr1, hpr2⟩
    have hlpP : (lp, rp) ∈ interPairs st left right := mem_interPairs.mpr ⟨hlp, hrp⟩
    rcases mem_productPairEdges.mp hmem with
      ⟨a', ha', nl, hnl, nr, hnr, heq⟩ | ⟨hc, nl, hnl, nr, hnr, heq⟩
    · simp only [Prod.mk.injEq] at heq
      obtain ⟨h1, rfl, rfl⟩ := heq
      obtain rfl : (lp, rp) = pr := interPid_inj hlpP hprP h1
      exact Or.inl ⟨ha', nl, hnl, nr, hnr, rfl⟩
    · simp only [Prod.mk.injEq] at heq
      obtain ⟨h1, rfl, rfl⟩ := heq
      obtain rfl : (lp, rp) = pr := interPid_inj hlpP hprP h1
      exact Or.inr ⟨rfl, nl, hnl, nr, hnr, rfl⟩

/-- A run of the product automaton decodes to a pair of synchronized runs
of the operands, spelling the same word. -/
theorem inter_run_decode (hwf : WF st)
    (h : intersect left right st = .ok (pnfa, st')) :
    ∀ {p : Nat} {w : List Char} {q : Nat}, Run st'.edges p w q →
      ∀ {lp rp : Nat}, lp ∈ collect_reachable_states st left.initial →
        rp ∈ collect_reachable_states st right.initial →
        p = interPid st left right (lp, rp) →
        ∃ lq rq, lq ∈ collect_reachable_states st left.initial
          ∧ rq ∈ collect_reachable_states st right.initial
          ∧ q = interPid st left right (lq, rq)
          ∧ Run st.edges lp w lq ∧ Run st.edges rp w rq := by
  intro p w q hrun
  induction hrun with
  | nil s =>
    intro lp rp hlp hrp hp
    exact ⟨lp, rp, hlp, hrp, hp, Run.nil lp, Run.nil rp⟩
  | @sym s t u a w hne he hsub ih =>
    intro lp rp hlp hrp hp
    subst hp
    rcases inter_edge_decode hwf h hlp hrp he with
      ⟨-, nl, hnl, nr, hnr, rfl⟩ | ⟨haeps, -⟩
    · have hnlL : nl ∈ collect_reachable_states st left.initial :=
        collect_closed st left.initial lp hlp (mem_succOf.mpr ⟨a, mem_transOf.mp hnl⟩)
      have hnrR : nr ∈ collect_reachable_states st right.initial :=
        collect_closed st right.initial rp hrp (mem_succOf.mpr ⟨a, mem_transOf.mp hnr⟩)
      obtain ⟨lq, rq, h1, h2, h3, h4, h5⟩ := ih hnlL hnrR rfl
      exact ⟨lq, rq, h1, h2, h3,
        Run.sym hne (mem_transOf.mp hnl) h4, Run.sym hne (mem_transOf.mp hnr) h5⟩
    · exact absurd haeps hne
  | @eps s t u w he hsub ih =>
    intro lp rp hlp hrp hp
    subst hp
    rcases inter_edge_decode hwf h hlp hrp he with
      ⟨hne, -⟩ | ⟨-, nl, hnl, nr, hnr, rfl⟩
    · exact absurd rfl hne
    · have hnlL : nl ∈ collect_reachable_states st left.initial := by
        rcases Finset.mem_insert.mp hnl with rfl | hnl'
        · exact hlp
        · exact collect_closed st left.initial lp hlp
            (mem_succOf.mpr ⟨EPSILON, mem_transOf.mp hnl'⟩)
      have hnrR : nr ∈ collect_reachable_states st right.initial := by
        rcases Finset.mem_insert.mp hnr with rfl | hnr'
        · exact hrp
        · exact collect_closed st right.initial rp hrp
            (mem_succOf.mpr ⟨EPSILON, mem_transOf.mp hnr'⟩)
      obtain ⟨lq, rq, h1, h2, h3, h4, h5⟩ := ih hnlL hnrR rfl
      have runL : Run st.edges lp w lq := by
        rcases Finset.mem_insert.mp hnl with heq | hnl'
        · exact heq ▸ h4
        · exact Run.eps (mem_transOf.mp hnl') h4
      have runR : Run st.edges rp w rq := by
        rcases Finset.mem_insert.mp hnr with heq | hnr'
        · exact heq ▸ h5
        · exact Run.eps (mem_transOf.mp hnr') h5
      exact ⟨lq, rq, h1, h2, h3, runL, runR⟩

/-- Special case of the encoding: the left operand idles on an empty word
while the right operand makes epsilon moves. -/
theorem inter_run_encode_nil (h : intersect left right st = .ok (pnfa, st')) :
    ∀ {rp : Nat} {v : List Char} {rq : Nat}, Run st.edges rp v rq → v = [] →
      rp ∈ collect_reachable_states st right.initial →
      ∀ {lp : Nat}, lp ∈ collect_reachable_states st left.initial →
      Run st'.edges (interPid st left right (lp, rp)) []
        (interPid st left right (lp, rq)) := by
  intro rp v rq hR
  induction hR with
  | nil s =>
    intro _ _ lp _
    exact Run.nil _
  | @sym s t u a w hne he hsub ih =>
    intro hv
    cases hv
  | @eps s t u w he hsub ih =>
    intro hv hrp lp hlp
    have htR : t ∈ collect_reachable_states st right.initial :=
      collect_closed st right.initial s hrp (mem_succOf.mpr ⟨EPSILON, he⟩)
    refine Run.eps (inter_eps_edge h hlp hrp
      (Or.inr (Finset.ne_empty_of_mem (mem_transOf.mpr he)))
      (Finset.mem_insert_self _ _)
      (Finset.mem_insert_of_mem (mem_transOf.mpr he))) ?_
    exact ih hv htR hlp

/-- A pair of synchronized runs of the operands, spelling the same word,
encodes into a run of the product automaton. -/
theorem inter_run_encode (h : intersect left right st = .ok (pnfa, st')) :
    ∀ {lp : Nat} {w : List Char} {lq : Nat}, Run st.edges lp w lq →
      lp ∈ collect_reachable_states st left.initial →
      ∀ {rp rq : Nat}, rp ∈ collect_reachable_states st right.initial →
        Run st.edges rp w rq →
        Run st'.edges (interPid st left right (lp, rp)) w
          (interPid st left right (lq, rq)) := by
  intro lp w lq hL
  induction hL with
  | nil s =>
    intro hs rp rq hrp hR
    exact inter_run_encode_nil h hR rfl hrp hs
  | @sym s t u a w hne he hsub ih =>
    intro hs rp rq hrp hR
    have htL : t ∈ collect_reachable_states st left.initial :=
      collect_closed st left.initial s hs (mem_succOf.mpr ⟨a, he⟩)
    have key : ∀ {rp' : Nat} {v : List Char} {rq' : Nat}, Run st.edges rp' v rq' →
        a :: w = v → rp' ∈ collect_reachable_states st right.initial →
        Run st'.edges (interPid st left right (s, rp')) (a :: w)
          (interPid st left right (u, rq')) := by
      intro rp' v rq' hRi
      induction hRi with
      | nil s2 =>
        intro hv
        cases hv
      | @sym s2 t2 u2 b v2 hne2 he2 hsub2 ih2 =>
        intro hv hrp2
        obtain ⟨rfl, rfl⟩ : a = b ∧ w = v2 := by
          injection hv with h1 h2
          exact ⟨h1, h2⟩
        have ht2R : t2 ∈ collect_reachable_states st right.initial :=
          collect_closed st right.initial s2 hrp2 (mem_succOf.mpr ⟨a, he2⟩)
        refine Run.sym hne (inter_sym_edge h hs hrp2 hne
          (mem_transOf.mpr he) (mem_transOf.mpr he2)) ?_
        exact ih htL ht2R hsub2
      | @eps s2 t2 u2 v2 he2 hsub2 ih2 =>
        intro hv hrp2
        have ht2R : t2 ∈ collect_reachable_states st right.initial :=
          collect_closed st right.initial s2 hrp2 (mem_succOf.mpr ⟨EPSILON, he2⟩)
        refine Run.eps (inter_eps_edge h hs hrp2
          (Or.inr (Finset.ne_empty_of_mem (mem_transOf.mpr he2)))
          (Finset.mem_insert_self _ _)
          (Finset.mem_insert_of_mem (mem_transOf.mpr he2))) ?_
        exact ih2 hv ht2R
    exact key hR rfl hrp
  | @eps s t u w he hsub ih =>
    intro hs rp rq hrp hR
    have htL : t ∈ collect_reachable_states st left.initial :=
      collect_closed st left.initial s hs (mem_succOf.mpr ⟨EPSILON, he⟩)
    refine Run.eps (inter_eps_edge h hs hrp
      (Or.inl (Finset.ne_empty_of_mem (mem_transOf.mpr he)))
      (Finset.mem_insert_of_mem (mem_transOf.mpr he))
      (Finset.mem_insert_self _ _)) ?_
    exact ih htL hrp hR

/-- C1: the automaton returned by the product (intersection) construction
accepts exactly the intersection of the languages of its operands — a
string is accepted by the product automaton iff it is accepted by both. -/
theorem intersect_accepts_iff
    (hwf : WF st) (h : intersect left right st = .ok (pnfa, st')) (w : List Char) :
    Accepts st' pnfa w ↔ (Accepts st left w ∧ Accepts st right w) := by
  obtain ⟨hni, hna, -, -, -⟩ := intersect_fields h
  constructor
  · rintro ⟨f, hf, hrun⟩
    rw [hni] at hrun
    obtain ⟨lq, rq, hlq, hrq, rfl, runL, runR⟩ :=
      inter_run_decode hwf h hrun (mem_collect_self st left.initial)
        (mem_collect_self st right.initial) rfl
    rw [hna] at hf
    obtain ⟨p, hp, hacc1, hacc2, heq⟩ := mem_interAccepting.mp hf
    obtain rfl : (lq, rq) = p := interPid_inj (mem_interPairs.mpr ⟨hlq, hrq⟩) hp heq
    exact ⟨⟨lq, hacc1, runL⟩, ⟨rq, hacc2, runR⟩⟩
  · rintro ⟨⟨lf, hlf, runL⟩, ⟨rf, hrf, runR⟩⟩
    have hlfLS : lf ∈ collect_reachable_states st left.initial := run_mem_collect runL
    have hrfRS : rf ∈ collect_reachable_states st right.initial := run_mem_collect runR
    refine ⟨interPid st left right (lf, rf), ?_, ?_⟩
    · rw [hna]
      exact mem_interAccepting.mpr
        ⟨(lf, rf), mem_interPairs.mpr ⟨hlfLS, hrfRS⟩, hlf, hrf, rfl⟩
    · rw [hni]
      exact inter_run_encode h runL (mem_collect_self st left.initial)
        (mem_collect_self st right.initial) runR

end InterLanguage

/-- Witness for C1: the product of the two literal automata for `a`,
tested on the word "a". -/
theorem intersect_accepts_iff_witness :
    WF (Store.mk 69 {(65, 'a', 66), (67, 'a', 68)})
      ∧ intersect ⟨65, {66}⟩ ⟨67, {68}⟩ ⟨69, {(65, 'a', 66), (67, 'a', 68)}⟩
          = .ok (⟨69, {72}⟩, ⟨73, {(65, 'a', 66), (67, 'a', 68), (69, 'a', 72)}⟩)
      ∧ (Accepts ⟨73, {(65, 'a', 66), (67, 'a', 68), (69, 'a', 72)}⟩ ⟨69, {72}⟩ ['a']
          ↔ (Accepts ⟨69, {(65, 'a', 66), (67, 'a', 68)}⟩ ⟨65, {66}⟩ ['a']
             ∧ Accepts ⟨69, {(65, 'a', 66), (67, 'a', 68)}⟩ ⟨67, {68}⟩ ['a'])) :=
  ⟨by decide, by decide,
   @intersect_accepts_iff ⟨65, {66}⟩ ⟨67, {68}⟩ ⟨69, {(65, 'a', 66), (67, 'a', 68)}⟩
     ⟨73, {(65, 'a', 66), (67, 'a', 68), (69, 'a', 72)}⟩ ⟨69, {72}⟩
     (by decide) (by decide) ['a']⟩

/-! ## Claim C4

Epsilon elimination.  The module implementing it (`e_nfa.e_nfa_2`,
imported by `main.py` as `convert_e_to_efree`) is not part of the sources
available here, so the transform is modelled from the specification's
description and the claims are settled against that model. -/

/-- States with at least one outgoing transition. -/
def sourcesOf (E : Finset (Nat × Char × Nat)) : Finset Nat :=
  E.image (fun e => e.1)

/-- Symbols labelling at least one transition. -/
def symbolsOf (E : Finset (Nat × Char × Nat)) : Finset Char :=
  E.image (fun e => e.2.1)

/-- Modelled from the spec: the new destination set for `(s, a)` under
epsilon elimination — the union, over every state `u` in the
epsilon-closure of `s`, of `u`'s direct `a`-destinations, each further
expanded by its own epsilon-closure (the double-sided closure of
§4.4 step 2). -/
def newDest (st : Store) (s : Nat) (a : Char) : Finset Nat :=
  (epsilonClosure st s).biUnion
    (fun u => (transOf st u a).biUnion (fun d => epsilonClosure st d))

/-- Modelled from the spec: `removeEpsilons` (the `convert_e_to_efree`
transform of the missing `e_nfa.e_nfa_2` module).  For every state `s`
and every non-epsilon symbol `a` the transition table is rewritten to the
double-sided-closure destinations; all epsilon transitions are discarded;
a state is accepting in the result iff its epsilon-closure meets the
original accepting set.  "Every state" ranges over the whole graph; only
transition sources can contribute a non-empty row or a new accepting
state, so the finite enumerations below lose nothing. -/
def removeEpsilons (st : Store) (nfa : NFA) : Store × NFA :=
  (⟨st.next,
    (sourcesOf st.edges).biUnion (fun s =>
      ((symbolsOf st.edges).erase EPSILON).biUnion (fun a =>
        (newDest st s a).image (fun d => (s, a, d))))⟩,
   ⟨nfa.initial,
    (nfa.accepting ∪ sourcesOf st.edges).filter
      (fun s => epsilonClosure st s ∩ nfa.accepting ≠ ∅)⟩)

theorem store_ext {x y : Store} (h1 : x.next = y.next) (h2 : x.edges = y.edges) :
    x = y := by
  cases x
  cases y
  cases h1
  cases h2
  rfl

theorem nfa_ext {x y : NFA} (h1 : x.initial = y.initial)
    (h2 : x.accepting = y.accepting) : x = y := by
  cases x
  cases y
  cases h1
  cases h2
  rfl

/-- In an epsilon-free graph every state's epsilon-closure is just the
state itself. -/
theorem epsilonClosure_of_epsFree {st : Store}
    (hfree : ∀ e ∈ st.edges, e.2.1 ≠ EPSILON) (s : Nat) :
    epsilonClosure st s = {s} := by
  apply Finset.Subset.antisymm
  · refine epsilonClosure_subset st s {s} ?_ (Finset.mem_singleton_self s)
    intro x _ t ht
    have hedge := mem_succEps.mp ht
    exact absurd rfl (hfree _ hedge)
  · intro x hx
    rw [Finset.mem_singleton] at hx
    subst hx
    exact mem_epsilonClosure_self st x

theorem newDest_of_epsFree {st : Store}
    (hfree : ∀ e ∈ st.edges, e.2.1 ≠ EPSILON) (s : Nat) (a : Char) :
    newDest st s a = transOf st s a := by
  rw [newDest, epsilonClosure_of_epsFree hfree s, Finset.singleton_biUnion]
  apply Finset.ext
  intro x
  rw [Finset.mem_biUnion]
  constructor
  · rintro ⟨d, hd, hx⟩
    rw [epsilonClosure_of_epsFree hfree d, Finset.mem_singleton] at hx
    subst hx
    exact hd
  · intro hx
    refine ⟨x, hx, ?_⟩
    rw [epsilonClosure_of_epsFree hfree x]
    exact Finset.mem_singleton_self x

/-- Applying the transform to an epsilon-free graph leaves the transition
table unchanged. -/
theorem removeEpsilons_edges_of_epsFree {st : Store}
    (hfree : ∀ e ∈ st.edges, e.2.1 ≠ EPSILON) (nfa : NFA) :
    (removeEpsilons st nfa).1.edges = st.edges := by
  apply Finset.ext
  intro e
  show e ∈ (sourcesOf st.edges).biUnion _ ↔ _
  rw [Finset.mem_biUnion]
  constructor
  · rintro ⟨s, _, he⟩
    rw [Finset.mem_biUnion] at he
    obtain ⟨a, _, he⟩ := he
    obtain ⟨d, hd, rfl⟩ := Finset.mem_image.mp he
    rw [newDest_of_epsFree hfree] at hd
    exact mem_transOf.mp hd
  · intro he
    obtain ⟨s, a, d⟩ := e
    refine ⟨s, Finset.mem_image.mpr ⟨(s, a, d), he, rfl⟩, ?_⟩
    rw [Finset.mem_biUnion]
    refine ⟨a, Finset.mem_erase.mpr
      ⟨hfree _ he, Finset.mem_image.mpr ⟨(s, a, d), he, rfl⟩⟩, ?_⟩
    refine Finset.mem_image.mpr ⟨d, ?_, rfl⟩
    rw [newDest_of_epsFree hfree]
    exact mem_transOf.mpr he

/-- The transform's output is epsilon-free. -/
theorem removeEpsilons_epsFree (st : Store) (nfa : NFA) :
    ∀ e ∈ (removeEpsilons st nfa).1.edges, e.2.1 ≠ EPSILON := by
  intro e he
  replace he : e ∈ (sourcesOf st.edges).biUnion _ := he
  rw [Finset.mem_biUnion] at he
  obtain ⟨s, _, he⟩ := he
  rw [Finset.mem_biUnion] at he
  obtain ⟨a, ha, he⟩ := he
  obtain ⟨d, _, rfl⟩ := Finset.mem_image.mp he
  exact Finset.ne_of_mem_erase ha

theorem filter_union_mem (A B : Finset Nat) :
    (A ∪ B).filter (fun s => s ∈ A) = A := by
  apply Finset.ext
  intro x
  rw [Finset.mem_filter, Finset.mem_union]
  constructor
  · rintro ⟨_, h⟩
    exact h
  · intro h
    exact ⟨Or.inl h, h⟩

/-- In an epsilon-free graph the accepting set is also unchanged. -/
theorem removeEpsilons_accepting_of_epsFree {st : Store}
    (hfree : ∀ e ∈ st.edges, e.2.1 ≠ EPSILON) (nfa : NFA) :
    (removeEpsilons st nfa).2.accepting = nfa.accepting := by
  show (nfa.accepting ∪ sourcesOf st.edges).filter _ = nfa.accepting
  have hcong : ∀ x ∈ nfa.accepting ∪ sourcesOf st.edges,
      (epsilonClosure st x ∩ nfa.accepting ≠ ∅) ↔ x ∈ nfa.accepting := by
    intro x _
    rw [epsilonClosure_of_epsFree hfree x]
    constructor
    · intro hne
      rcases Finset.eq_empty_or_nonempty ({x} ∩ nfa.accepting) with he | hne2
      · exact absurd he hne
      · obtain ⟨y, hy⟩ := hne2
        obtain ⟨hy1, hy2⟩ := Finset.mem_inter.mp hy
        rw [Finset.mem_singleton] at hy1
        exact hy1 ▸ hy2
    · intro hx hc
      have hmem : x ∈ ({x} : Finset Nat) ∩ nfa.accepting :=
        Finset.mem_inter.mpr ⟨Finset.mem_singleton_self x, hx⟩
      rw [hc] at hmem
      exact Finset.not_mem_empty x hmem
  rw [Finset.filter_congr hcong]
  exact filter_union_mem nfa.accepting (sourcesOf st.edges)

/-- C4: `removeEpsilons` is idempotent — applying it a second time to
the automaton the first application produced yields exactly the same
transition table (and accepting set); in particular, applying it to an
already epsilon-free automaton changes nothing, since every state's
epsilon-closure is then just the state itself. -/
theorem removeEpsilons_idempotent (st : Store) (nfa : NFA) :
    ∀ st1 nfa1, removeEpsilons st nfa = (st1, nfa1) →
      removeEpsilons st1 nfa1 = (st1, nfa1)
        ∧ ((∀ e ∈ st.edges, e.2.1 ≠ EPSILON) →
            st1 = st ∧ nfa1 = nfa ∧ ∀ s, epsilonClosure st s = {s}) := by
  intro st1 nfa1 h
  have hfree1 : ∀ e ∈ st1.edges, e.2.1 ≠ EPSILON := by
    have hx := removeEpsilons_epsFree st nfa
    rw [h] at hx
    exact hx
  constructor
  · refine Prod.ext_iff.mpr ⟨?_, ?_⟩
    · exact store_ext rfl (removeEpsilons_edges_of_epsFree hfree1 nfa1)
    · exact nfa_ext rfl (removeEpsilons_accepting_of_epsFree hfree1 nfa1)
  · intro hfree
    have h1 : (removeEpsilons st nfa).1 = st :=
      store_ext rfl (removeEpsilons_edges_of_epsFree hfree nfa)
    have h2 : (removeEpsilons st nfa).2 = nfa :=
      nfa_ext rfl (removeEpsilons_accepting_of_epsFree hfree nfa)
    rw [h] at h1 h2
    exact ⟨h1, h2, epsilonClosure_of_epsFree hfree⟩

instance : DecidableEq (Store × NFA) := fun x y =>
  decidable_of_iff (x.1 = y.1 ∧ x.2 = y.2) (by cases x; cases y; simp [Prod.ext_iff])

/-- Witness for C4: a concrete epsilon-free two-state automaton, on which
the transform is the identity and a second application returns the same
result. -/
theorem removeEpsilons_idempotent_witness :
    removeEpsilons ⟨2, {(0, 'a', 1)}⟩ ⟨0, {1}⟩ = (⟨2, {(0, 'a', 1)}⟩, ⟨0, {1}⟩)
      ∧ epsilonClosure ⟨2, {(0, 'a', 1)}⟩ 0 = {0} :=
  ⟨(removeEpsilons_idempotent ⟨2, {(0, 'a', 1)}⟩ ⟨0, {1}⟩ ⟨2, {(0, 'a', 1)}⟩ ⟨0, {1}⟩
      (by decide)).1,
   ((removeEpsilons_idempotent ⟨2, {(0, 'a', 1)}⟩ ⟨0, {1}⟩ ⟨2, {(0, 'a', 1)}⟩ ⟨0, {1}⟩
      (by decide)).2 (by decide)).2.2 0⟩
